import Mathlib

/-!
Verification of the EncodeNexus node-graph engine (src/engine.rs, src/node.rs,
src/script.rs) against its specification.

Modelling conventions:
* `f32` is modelled as `Rat`.  The engine never performs arithmetic on the
  stored numbers; it only moves them between controls, Lua records and back,
  and the `f32 → f64 → f32` round trip performed by `get_value`/`set_value`
  is exact, so an exact numeric carrier is faithful.
* A Lua value is `LuaVal`: `nil`, a value coercible to a number (`num`), or a
  value that `f32::from_lua` rejects (`other`).
* A Lua table used as an input/output record is an association list observed
  only through `recGet`/`recSet`; the engine never iterates a record.
* A Rust panic (`unwrap`, `panic!`, indexing a missing map key) is modelled as
  `Option.none` / an error result at the same program point.
* Node behaviours (`mlua` functions) are modelled as pure functions
  `Record → Except String Record`.
-/

/-- A Lua value as seen by the engine: `nil`, a number (including anything
`f32::from_lua` coerces to a number), or a non-coercible value. -/
inductive LuaVal where
  | nil : LuaVal
  | num : Rat → LuaVal
  | other : String → LuaVal
deriving DecidableEq, Repr

/-- A Lua table used as an input or output record: a name-to-value
association list. -/
abbrev Record := List (String × LuaVal)

/-- Lookup in an association list (`BTreeMap::get` / `IndexMap::get` /
reading a Lua table field).  Maps are observed only through this lookup, so
the list order chosen by the update operations below is immaterial. -/
def assocGet {κ α : Type} [DecidableEq κ] : List (κ × α) → κ → Option α
  | [], _ => none
  | p :: rest, k => if p.1 = k then some p.2 else assocGet rest k

/-- Removal of a key from an association list (deleting a Lua table field). -/
def assocErase {κ α : Type} [DecidableEq κ] : List (κ × α) → κ → List (κ × α)
  | [], _ => []
  | p :: rest, k => if p.1 = k then assocErase rest k else p :: assocErase rest k

/-- Insert-or-replace in an association list (`BTreeMap::insert` / writing a
non-nil Lua table field). -/
def assocSet {κ α : Type} [DecidableEq κ] (m : List (κ × α)) (k : κ) (v : α) :
    List (κ × α) :=
  (k, v) :: assocErase m k

/-- Reading a table field in Lua: a missing key reads as `nil`. -/
def recGet (r : Record) (k : String) : LuaVal :=
  match assocGet r k with
  | some v => v
  | none => .nil

/-- Writing a table field in Lua: writing `nil` deletes the key. -/
def recSet (r : Record) (k : String) (v : LuaVal) : Record :=
  match v with
  | .nil => assocErase r k
  | v => assocSet r k v

/-- Port kind (`Pin` in node.rs); a single variant `Float`. -/
inductive Pin where
  | float : Pin
deriving DecidableEq, Repr

/-- A control (`Control` in node.rs): an editable bounded slider or a
read-only float display. -/
inductive Control where
  | slider (value mn mx : Rat) : Control
  | showFloat (value : Rat) : Control
deriving DecidableEq, Repr

/-- Conversion `f32::from_lua` used by `Control::set_value`: succeeds exactly
on number-coercible values. -/
def fromLuaF32 (v : LuaVal) : Except String Rat :=
  match v with
  | .num x => .ok x
  | _ => .error "error converting Lua value to f32"

/-- `Control::get_value` in node.rs: the numeric value as a Lua number
(`f32 → f64` is exact, so this is lossless). -/
def Control.get_value (c : Control) : LuaVal :=
  match c with
  | .slider value _ _ => .num value
  | .showFloat value => .num value

/-- `Control::set_value` in node.rs.  In Rust the assignment `*value = ...?`
mutates in place and leaves the control untouched when `from_lua` fails; we
return the (possibly unchanged) control together with the optional error. -/
def Control.set_value (c : Control) (lv : LuaVal) : Control × Option String :=
  match c with
  | .slider value mn mx =>
    match fromLuaF32 lv with
    | .ok x => (.slider x mn mx, none)
    | .error e => (.slider value mn mx, some e)
  | .showFloat value =>
    match fromLuaF32 lv with
    | .ok x => (.showFloat x, none)
    | .error e => (.showFloat value, some e)

/-- `NodePrototype` in node.rs: id, title, ordered port schemas, ordered
default controls, and the behaviour. -/
structure NodePrototype where
  id : String
  title : String
  inputs : List (String × Pin)
  outputs : List (String × Pin)
  controls : List (String × Control)
  run : Record → Except String Record

/-- `Node` in node.rs: a shared prototype plus per-instance control data. -/
structure Node where
  prototype : NodePrototype
  data : List (String × Control)

/-- `NodePrototype::unknown` in node.rs: the sentinel prototype used when an
id cannot be resolved against the registry. -/
def NodePrototype.unknown (id : String) : NodePrototype :=
  { id := id
    title := "Unknown"
    inputs := []
    outputs := []
    controls := []
    run := fun _ => .error "unknown node type" }

instance : Inhabited Node := ⟨{ prototype := NodePrototype.unknown "", data := [] }⟩

/-- `NodePrototype::create` in node.rs: instantiate with a fresh copy of the
default controls. -/
def NodePrototype.create (p : NodePrototype) : Node :=
  { prototype := p, data := p.controls }

/-- The process-wide prototype registry (`REGISTRY` in script.rs), modelled
as an association list keyed by id. -/
abbrev Registry := List (String × NodePrototype)

/-- `Node::find_factory` in node.rs: registry lookup by id. -/
def findFactory (registry : Registry) (id : String) : Option NodePrototype :=
  assocGet registry id

/-- `Node::from_data` in node.rs: resolve persisted (id, controls) against the
registry, falling back to the `unknown` prototype on a miss. -/
def Node.from_data (registry : Registry) (id : String)
    (data : List (String × Control)) : Node :=
  match findFactory registry id with
  | none => { prototype := NodePrototype.unknown id, data := data }
  | some prototype => { prototype := prototype, data := data }

/-- `Serialize for Node` in node.rs: a node serializes as the pair of its
prototype's id and its control data. -/
def serializeNode (n : Node) : String × List (String × Control) :=
  (n.prototype.id, n.data)

/-- `Node::input_name` in node.rs: name of the input port at `index`.  The
Rust code calls `.unwrap()`, panicking when the index is out of range; the
panic is modelled as `none`. -/
def Node.input_name (n : Node) (index : Nat) : Option String :=
  (n.prototype.inputs.get? index).map (fun p => p.1)

/-- `Node::output_name` in node.rs: name of the output port at `index`; the
out-of-range `.unwrap()` panic is modelled as `none`. -/
def Node.output_name (n : Node) (index : Nat) : Option String :=
  (n.prototype.outputs.get? index).map (fun p => p.1)

example : recGet (recSet [] "a" (.num 3)) "a" = .num 3 := by decide
example : (Control.set_value (.slider 1 0 10) (.other "s")).1 = .slider 1 0 10 := by decide
example : serializeNode (Node.from_data [] "missing" [("a", .showFloat 2)]) =
    ("missing", [("a", .showFloat 2)]) := rfl

/-- Modelled from the spec (§4.2): `petgraph::algo::toposort`, the external
crate function called at engine.rs line 31, is not part of this repository's
sources.  Per the contract — "fails with CycleError iff a directed cycle
exists; the order for independent vertices may be any valid linear extension"
— it is modelled as Kahn's algorithm: `pickSource` selects a remaining vertex
with no incoming edge from the remaining set. -/
def pickSource (edges : List (Nat × Nat)) (remaining : List Nat) : Option Nat :=
  remaining.find? (fun v => remaining.all (fun u => ¬ (u, v) ∈ edges))

/-- Fuel-driven body of Kahn's algorithm: repeatedly remove a source vertex;
report `none` when no source exists among a nonempty remaining set. -/
def kahnAux (edges : List (Nat × Nat)) : Nat → List Nat → Option (List Nat)
  | 0, remaining => if remaining = [] then some [] else none
  | fuel + 1, remaining =>
    if remaining = [] then some [] else
    match pickSource edges remaining with
    | none => none
    | some v => (kahnAux edges fuel (remaining.erase v)).map (fun ord => v :: ord)

/-- Modelled from the spec (§4.2): topological ordering of the vertices
`0, …, n-1` under `edges`, or `none` when a directed cycle exists. -/
def toposort (n : Nat) (edges : List (Nat × Nat)) : Option (List Nat) :=
  kahnAux edges n (List.range n)

/-- A directed cycle: a nonempty vertex list whose consecutive elements are
edges and whose last element has an edge back to the first. -/
def IsCycle (edges : List (Nat × Nat)) : List Nat → Prop
  | [] => False
  | v :: rest => List.Chain (fun a b => (a, b) ∈ edges) v (rest ++ [v])

/-- The graph described by `edges` contains a directed cycle. -/
def HasCycle (edges : List (Nat × Nat)) : Prop :=
  ∃ c, IsCycle edges c

/-- Position of `x` in a list (`indexOf`); equal to the length when absent. -/
def posIn (l : List Nat) (x : Nat) : Nat :=
  match l with
  | [] => 0
  | y :: ys => if x = y then 0 else posIn ys x + 1

example : toposort 3 [(0, 1), (1, 2)] = some [0, 1, 2] := by decide
example : toposort 2 [(0, 1), (1, 0)] = none := by decide
example : toposort 3 [(2, 0)] = some [1, 2, 0] := by decide

/-- A wire of the snarl graph: from (source node, output port index) to
(target node, input port index).  Snarl node ids are modelled as positions in
the node list; engine.rs maps them to graph indices via a `BTreeMap`, which
is a renaming only. -/
structure Wire where
  outNode : Nat
  outPort : Nat
  inNode : Nat
  inPort : Nat
deriving DecidableEq, Repr

/-- A resolved graph edge as built in engine.rs lines 20-29: endpoints plus
the (source output name, target input name) label. -/
structure REdge where
  src : Nat
  dst : Nat
  outName : String
  inName : String
deriving DecidableEq, Repr

/-- Per-wire edge construction of engine.rs lines 20-29: look up both
endpoint nodes (`map[..]` panics on a missing id) and both port names
(`output_name`/`input_name` panic past the schema); a panic is `none`. -/
def resolveWire (nodes : List Node) (w : Wire) : Option REdge :=
  match nodes.get? w.outNode, nodes.get? w.inNode with
  | some a, some b =>
    match a.output_name w.outPort, b.input_name w.inPort with
    | some outName, some inName => some ⟨w.outNode, w.inNode, outName, inName⟩
    | _, _ => none
  | _, _ => none

/-- The graph-building loop of engine.rs lines 20-29 over all wires. -/
def resolveWires (nodes : List Node) : List Wire → Option (List REdge)
  | [] => some []
  | w :: ws =>
    match resolveWire nodes w, resolveWires nodes ws with
    | some e, some es => some (e :: es)
    | _, _ => none

/-- Step 2 of the engine loop (engine.rs lines 43-45): write every current
control value of the node into its input record under its own name. -/
def mkRecord (data : List (String × Control)) (r : Record) : Record :=
  data.foldl (fun r nc => recSet r nc.1 nc.2.get_value) r

/-- Step 4 of the engine loop (engine.rs lines 49-54): for each control, if
the output record holds a non-nil value under the control's name, store it
via `set_value`.  The Rust `?` aborts at the first conversion failure with
the controls updated so far retained. -/
def writeBack : List (String × Control) → Record → List (String × Control) × Option String
  | [], _ => ([], none)
  | (name, c) :: rest, out =>
    match recGet out name with
    | .nil => let (rest', e) := writeBack rest out; ((name, c) :: rest', e)
    | v =>
      match c.set_value v with
      | (c', none) => let (rest', e) := writeBack rest out; ((name, c') :: rest', e)
      | (c', some msg) => ((name, c') :: rest, some msg)

/-- Errors of one engine run.  Both a behaviour failure and a control
conversion failure surface as the propagated `LuaError` (`luaErr`); `panic`
models the `unwrap` panics of wire resolution, `cycle` the toposort failure. -/
inductive RunError where
  | panic : RunError
  | cycle : RunError
  | luaErr : String → RunError
deriving DecidableEq, Repr

/-- The engine loop's state: the node collection (mutated in place in Rust),
the per-node input records, plus observational instrumentation — each
executed node's output record and the invocation order. -/
structure EngState where
  nodes : List Node
  inputs : List (Nat × Record)
  outRecs : List (Nat × Record)
  invoked : List Nat

/-- One iteration of the engine loop (engine.rs lines 36-68) for vertex `v`:
build the input record from the node's controls, invoke the behaviour, write
back controls, then forward outputs along outgoing edges, writing into each
target slot the output record's value under the edge's source label.
Outgoing edges are visited in wire order; petgraph enumerates them newest
first, which can differ only in which of several writes to one (target,
input-name) slot wins — a case the editor's one-wire-per-input invariant
excludes, and every theorem below assumes away explicitly. -/
def stepNode (edges : List REdge) (v : Nat) (st : EngState) : EngState × Option RunError :=
  let node := st.nodes.getD v default
  let rec0 := (assocGet st.inputs v).getD []
  let rec1 := mkRecord node.data rec0
  let st1 : EngState :=
    { st with inputs := assocSet st.inputs v rec1, invoked := st.invoked ++ [v] }
  match node.prototype.run rec1 with
  | .error e => (st1, some (.luaErr e))
  | .ok out =>
    let wb := writeBack node.data out
    let st2 : EngState :=
      { st1 with
        nodes := st1.nodes.set v { node with data := wb.1 }
        outRecs := assocSet st1.outRecs v out }
    match wb.2 with
    | some e => (st2, some (.luaErr e))
    | none =>
      let st3 : EngState :=
        { st2 with
          inputs := (edges.filter (fun e => e.src = v)).foldl (fun m e =>
            assocSet m e.dst
              (recSet ((assocGet m e.dst).getD []) e.inName (recGet out e.outName)))
            st2.inputs }
      (st3, none)

/-- The engine loop over the scheduled order, aborting at the first error
with the state reached so far (engine.rs lines 36-68). -/
def runLoop (edges : List REdge) : List Nat → EngState → EngState × Option RunError
  | [], st => (st, none)
  | v :: rest, st =>
    match stepNode edges v st with
    | (st', none) => runLoop edges rest st'
    | (st', some e) => (st', some e)

/-- Result of `engine::run`: the final node collection, the final record
maps, the invocation trace, and the error (if any). -/
structure RunResult where
  nodes : List Node
  inputs : List (Nat × Record)
  outRecs : List (Nat × Record)
  invoked : List Nat
  error : Option RunError

/-- `engine::run` (engine.rs lines 13-71): build the labelled graph from the
wires, topologically sort it, then execute every node once in order. -/
def engineRun (nodes : List Node) (wires : List Wire) : RunResult :=
  match resolveWires nodes wires with
  | none => ⟨nodes, [], [], [], some .panic⟩
  | some edges =>
    match toposort nodes.length (edges.map (fun e => (e.src, e.dst))) with
    | none => ⟨nodes, [], [], [], some .cycle⟩
    | some ord =>
      let r := runLoop edges ord ⟨nodes, [], [], []⟩
      ⟨r.1.nodes, r.1.inputs, r.1.outRecs, r.1.invoked, r.2⟩

/-- `NodeEntry` in script.rs: the hierarchical menu tree — a leaf prototype
or a category of entries (a `BTreeMap`, modelled as an association list). -/
inductive NodeEntry where
  | node (p : NodePrototype) : NodeEntry
  | category (entries : List (String × NodeEntry)) : NodeEntry

/-- The menu tree (`CATEGORY` in script.rs). -/
abbrev Category := List (String × NodeEntry)

/-- A parsed node definition as accepted by `register_node` in script.rs
(after the Lua argument extraction of lines 76-87). -/
structure NodeDef where
  id : String
  name : String
  title : String
  inputs : List (String × Pin)
  outputs : List (String × Pin)
  controls : List (String × Control)
  run : Record → Except String Record

/-- The prototype built by `register_node` (script.rs lines 98-109). -/
def NodeDef.prototype (d : NodeDef) : NodePrototype :=
  { id := d.id
    title := d.title
    inputs := d.inputs
    outputs := d.outputs
    controls := d.controls
    run := d.run }

/-- Failure modes of registration: the control/port name collision (a
`panic!` in script.rs lines 89-96) and the "category conflict" error of
line 121. -/
inductive RegError where
  | controlCollision (key : String) : RegError
  | categoryConflict : RegError
deriving DecidableEq, Repr

/-- The category walk of script.rs lines 113-125: descend along all path
components but the last, creating empty categories on demand (`or_insert`);
fail when an intermediate component is an existing leaf; finally insert the
prototype under the last component.  Returns the updated tree (partial
creations are retained on failure, as in Rust) and whether a conflict hit. -/
def insertEntry (p : NodePrototype) : List String → String → Category → Category × Bool
  | [], last, cat => (assocSet cat last (.node p), false)
  | c :: rest, last, cat =>
    match assocGet cat c with
    | some (.node _) => (cat, true)
    | some (.category sub) =>
      let r := insertEntry p rest last sub
      (assocSet cat c (.category r.1), r.2)
    | none =>
      let r := insertEntry p rest last []
      (assocSet cat c (.category r.1), r.2)

/-- `register_node` in script.rs (lines 75-128): check control names against
input and output names (a collision is a `panic!`, before any state change),
insert the prototype into the registry, then walk the category tree.  A
category conflict is reported after the registry insertion, exactly as in
the source. -/
def registerNode (d : NodeDef) (reg : Registry) (cat : Category) :
    Registry × Category × Option RegError :=
  match d.controls.find? (fun kc =>
      (assocGet d.inputs kc.1).isSome || (assocGet d.outputs kc.1).isSome) with
  | some kc => (reg, cat, some (.controlCollision kc.1))
  | none =>
    let reg' := assocSet reg d.id d.prototype
    let comps := d.name.splitOn "::"
    let walk := insertEntry d.prototype comps.dropLast (comps.getLastD "") cat
    (reg', walk.1, if walk.2 then some .categoryConflict else none)

/-- Whether walking the proper-prefix components of a path through the
category tree hits an existing leaf entry — the statement-side
characterisation of the "category conflict" failure. -/
def leafConflict : Category → List String → Bool
  | _, [] => false
  | cat, c :: rest =>
    match assocGet cat c with
    | some (.node _) => true
    | some (.category sub) => leafConflict sub rest
    | none => false

/-- Fixture: the constant source node of spec Scenario 1 — no inputs, one
output "x", behaviour returns the record with x = 5. -/
def constNode : Node :=
  { prototype :=
    { id := "const", title := "Const", inputs := [], outputs := [("x", .float)],
      controls := [], run := fun _ => .ok [("x", .num 5)] }
    data := [] }

/-- Fixture: the doubling node of spec Scenario 1 — input "y", output "z",
behaviour returns z = 2 * y. -/
def doubleNode : Node :=
  { prototype :=
    { id := "double", title := "Double", inputs := [("y", .float)],
      outputs := [("z", .float)], controls := [],
      run := fun r =>
        match recGet r "y" with
        | .num x => .ok [("z", .num (2 * x))]
        | _ => .error "not a number" }
    data := [] }

/-- Fixture: a node whose behaviour always fails. -/
def failNode : Node :=
  { prototype :=
    { id := "fail", title := "Fail", inputs := [], outputs := [], controls := [],
      run := fun _ => .error "boom" }
    data := [] }

/-- Fixture: a relay node — one input "i", one output "o", echo behaviour. -/
def relayNode : Node :=
  { prototype :=
    { id := "relay", title := "Relay", inputs := [("i", .float)],
      outputs := [("o", .float)], controls := [], run := fun r => .ok r }
    data := [] }

/-- Fixture: spec Scenario 2 — a slider control v = 3 in [0, 10] with an
identity (echo) behaviour. -/
def sliderEchoNode : Node :=
  { prototype :=
    { id := "sld", title := "Slider", inputs := [], outputs := [],
      controls := [("v", .slider 3 0 10)], run := fun r => .ok r }
    data := [("v", .slider 3 0 10)] }


/-! ### Association-list and record lemmas -/

theorem assocGet_assocErase_self {κ α : Type} [DecidableEq κ] (m : List (κ × α)) (k : κ) :
    assocGet (assocErase m k) k = none := by
  induction m with
  | nil => rfl
  | cons p rest ih =>
    by_cases hp : p.1 = k <;> simp [assocErase, assocGet, hp, ih]

theorem assocGet_assocErase_ne {κ α : Type} [DecidableEq κ] (m : List (κ × α)) (k k' : κ)
    (h : k' ≠ k) : assocGet (assocErase m k) k' = assocGet m k' := by
  induction m with
  | nil => rfl
  | cons p rest ih =>
    by_cases hp : p.1 = k
    · have hpk : ¬ p.1 = k' := fun hh => h (hh ▸ hp ▸ rfl)
      have h2 : ¬ k = k' := fun hh => h hh.symm
      simp [assocErase, assocGet, hp, hpk, h2, ih]
    · by_cases hp' : p.1 = k' <;> simp [assocErase, assocGet, hp, hp', h, ih]

theorem assocGet_assocSet_self {κ α : Type} [DecidableEq κ] (m : List (κ × α)) (k : κ) (v : α) :
    assocGet (assocSet m k v) k = some v := by
  simp [assocSet, assocGet]

theorem assocGet_assocSet_ne {κ α : Type} [DecidableEq κ] (m : List (κ × α)) (k k' : κ) (v : α)
    (h : k' ≠ k) : assocGet (assocSet m k v) k' = assocGet m k' := by
  have h2 : ¬ k = k' := fun hh => h hh.symm
  simp [assocSet, assocGet, h2, assocGet_assocErase_ne m k k' h]

theorem recGet_recSet_self (r : Record) (k : String) (v : LuaVal) :
    recGet (recSet r k v) k = v := by
  cases v with
  | nil => simp [recSet, recGet, assocGet_assocErase_self]
  | num x => simp [recSet, recGet, assocGet_assocSet_self]
  | other s => simp [recSet, recGet, assocGet_assocSet_self]

theorem recGet_recSet_ne (r : Record) (k k' : String) (v : LuaVal) (h : k' ≠ k) :
    recGet (recSet r k v) k' = recGet r k' := by
  cases v with
  | nil => simp [recSet, recGet, assocGet_assocErase_ne r k k' h]
  | num x => simp [recSet, recGet, assocGet_assocSet_ne r k k' _ h]
  | other s => simp [recSet, recGet, assocGet_assocSet_ne r k k' _ h]

/-- C10: `Control::set_value` changes only the numeric value: a slider's
bounds survive every call, the variant is preserved, and a failed conversion
leaves the whole control unchanged. -/
theorem set_value_preserves_bounds (c : Control) (lv : LuaVal) :
    ((c.set_value lv).2.isSome → (c.set_value lv).1 = c) ∧
    (∀ v mn mx, c = .slider v mn mx → ∃ v', (c.set_value lv).1 = .slider v' mn mx) ∧
    (∀ v, c = .showFloat v → ∃ v', (c.set_value lv).1 = .showFloat v') := by
  cases c <;> cases lv <;> simp [Control.set_value, fromLuaF32]

/-- Witness for C10 at concrete inputs: a failing write (a non-numeric Lua
value) leaves a slider untouched, and a successful write keeps its bounds. -/
theorem set_value_preserves_bounds_witness :
    (Control.set_value (.slider 1 0 10) (.other "s")).1 = .slider 1 0 10 ∧
    ∃ v', (Control.set_value (.slider 1 0 10) (.num 7)).1 = .slider v' 0 10 :=
  ⟨(set_value_preserves_bounds (.slider 1 0 10) (.other "s")).1 (by decide),
   (set_value_preserves_bounds (.slider 1 0 10) (.num 7)).2.1 1 0 10 rfl⟩

/-- C6: resolving an id that misses the registry yields a node with the
`unknown` prototype — empty schemas and an always-failing behaviour — that
keeps the supplied id and control data and serializes back losslessly. -/
theorem unknown_id_roundtrip (registry : Registry) (id : String)
    (data : List (String × Control)) (hmiss : findFactory registry id = none) :
    (Node.from_data registry id data).prototype.inputs = [] ∧
    (Node.from_data registry id data).prototype.outputs = [] ∧
    (∀ r, (Node.from_data registry id data).prototype.run r =
      .error "unknown node type") ∧
    (Node.from_data registry id data).prototype.id = id ∧
    (Node.from_data registry id data).data = data ∧
    serializeNode (Node.from_data registry id data) = (id, data) := by
  simp [Node.from_data, hmiss, NodePrototype.unknown, serializeNode]

/-- Witness for C6: an empty registry misses the id "missing". -/
theorem unknown_id_roundtrip_witness :
    (Node.from_data [] "missing" [("a", .showFloat 2)]).prototype.inputs = [] ∧
    (Node.from_data [] "missing" [("a", .showFloat 2)]).prototype.outputs = [] ∧
    (∀ r, (Node.from_data [] "missing" [("a", .showFloat 2)]).prototype.run r =
      .error "unknown node type") ∧
    (Node.from_data [] "missing" [("a", .showFloat 2)]).prototype.id = "missing" ∧
    (Node.from_data [] "missing" [("a", .showFloat 2)]).data = [("a", .showFloat 2)] ∧
    serializeNode (Node.from_data [] "missing" [("a", .showFloat 2)]) =
      ("missing", [("a", .showFloat 2)]) :=
  unknown_id_roundtrip [] "missing" [("a", .showFloat 2)] rfl

/-- C9: `input_name`/`output_name` return the schema name exactly when the
index is in range and panic (modelled `none`) otherwise; per-wire resolution
in the graph builder is total exactly when both port indices lie within the
endpoints' schemas, and always panics for a wire attached to a node that
resolved to the `Unknown` prototype (empty schemas). -/
theorem port_name_totality :
    (∀ (n : Node) (i : Nat) (h : i < n.prototype.inputs.length),
        n.input_name i = some (n.prototype.inputs.get ⟨i, h⟩).1) ∧
    (∀ (n : Node) (i : Nat), n.prototype.inputs.length ≤ i → n.input_name i = none) ∧
    (∀ (n : Node) (i : Nat) (h : i < n.prototype.outputs.length),
        n.output_name i = some (n.prototype.outputs.get ⟨i, h⟩).1) ∧
    (∀ (n : Node) (i : Nat), n.prototype.outputs.length ≤ i → n.output_name i = none) ∧
    (∀ (nodes : List Node) (w : Wire) (a b : Node),
        nodes.get? w.outNode = some a → nodes.get? w.inNode = some b →
        ((resolveWire nodes w).isSome ↔
          w.outPort < a.prototype.outputs.length ∧ w.inPort < b.prototype.inputs.length)) ∧
    (∀ (registry : Registry) (id : String) (data : List (String × Control))
        (nodes : List Node) (w : Wire),
        findFactory registry id = none →
        (nodes.get? w.outNode = some (Node.from_data registry id data) ∨
          nodes.get? w.inNode = some (Node.from_data registry id data)) →
        resolveWire nodes w = none) := by
  have hin : ∀ (n : Node) (i : Nat) (h : i < n.prototype.inputs.length),
      n.input_name i = some (n.prototype.inputs.get ⟨i, h⟩).1 := by
    intro n i h
    rw [Node.input_name, List.get?_eq_get h]
    rfl
  have hin' : ∀ (n : Node) (i : Nat), n.prototype.inputs.length ≤ i →
      n.input_name i = none := by
    intro n i h
    rw [Node.input_name, List.get?_eq_none.mpr h]
    rfl
  have hout : ∀ (n : Node) (i : Nat) (h : i < n.prototype.outputs.length),
      n.output_name i = some (n.prototype.outputs.get ⟨i, h⟩).1 := by
    intro n i h
    rw [Node.output_name, List.get?_eq_get h]
    rfl
  have hout' : ∀ (n : Node) (i : Nat), n.prototype.outputs.length ≤ i →
      n.output_name i = none := by
    intro n i h
    rw [Node.output_name, List.get?_eq_none.mpr h]
    rfl
  refine ⟨hin, hin', hout, hout', ?_, ?_⟩
  · intro nodes w a b ha hb
    have hrw : resolveWire nodes w =
        (match a.output_name w.outPort, b.input_name w.inPort with
          | some outName, some inName => some ⟨w.outNode, w.inNode, outName, inName⟩
          | _, _ => none) := by
      rw [resolveWire, ha, hb]
    rw [hrw]
    cases ho : a.output_name w.outPort with
    | none =>
      have hlen : ¬ w.outPort < a.prototype.outputs.length := by
        intro hlt
        rw [hout a _ hlt] at ho
        cases ho
      simp [hlen]
    | some outName =>
      have h1 : w.outPort < a.prototype.outputs.length := by
        by_contra hge
        rw [hout' a _ (Nat.le_of_not_lt hge)] at ho
        cases ho
      cases hi : b.input_name w.inPort with
      | none =>
        have hlen2 : ¬ w.inPort < b.prototype.inputs.length := by
          intro hlt
          rw [hin b _ hlt] at hi
          cases hi
        simp [hlen2]
      | some inName => simp [h1]; by_contra hge
                       rw [hin' b _ (Nat.le_of_not_lt hge)] at hi
                       cases hi
  · intro registry id data nodes w hmiss hcase
    have hproto : (Node.from_data registry id data).prototype =
        NodePrototype.unknown id := by
      simp [Node.from_data, hmiss]
    rcases hcase with ha | hb
    · have hnm : (Node.from_data registry id data).output_name w.outPort = none := by
        apply hout'
        rw [hproto]
        exact Nat.zero_le _
      cases hbb : nodes.get? w.inNode with
      | none => rw [resolveWire, ha, hbb]
      | some b =>
        have hrw : resolveWire nodes w =
            (match (Node.from_data registry id data).output_name w.outPort,
                b.input_name w.inPort with
              | some outName, some inName =>
                some ⟨w.outNode, w.inNode, outName, inName⟩
              | _, _ => none) := by
          rw [resolveWire, ha, hbb]
        rw [hrw, hnm]
    · have hnm : (Node.from_data registry id data).input_name w.inPort = none := by
        apply hin'
        rw [hproto]
        exact Nat.zero_le _
      cases haa : nodes.get? w.outNode with
      | none => rw [resolveWire, haa]
      | some a =>
        have hrw : resolveWire nodes w =
            (match a.output_name w.outPort,
                (Node.from_data registry id data).input_name w.inPort with
              | some outName, some inName =>
                some ⟨w.outNode, w.inNode, outName, inName⟩
              | _, _ => none) := by
          rw [resolveWire, haa, hb]
        rw [hrw, hnm]
        cases a.output_name w.outPort <;> rfl

/-- Witness for C9: a wire attached at port 0 of a node with the Unknown
prototype fails resolution, while the Const-to-Double wire resolves. -/
theorem port_name_totality_witness :
    resolveWire [Node.from_data [] "gone" []] ⟨0, 0, 0, 0⟩ = none ∧
    (resolveWire [constNode, doubleNode] ⟨0, 0, 1, 0⟩).isSome :=
  ⟨port_name_totality.2.2.2.2.2 [] "gone" [] [Node.from_data [] "gone" []] ⟨0, 0, 0, 0⟩
      rfl (Or.inl rfl),
   (port_name_totality.2.2.2.2.1 [constNode, doubleNode] ⟨0, 0, 1, 0⟩ constNode doubleNode
      rfl rfl).mpr (by decide)⟩

theorem insertEntry_fresh (p : NodePrototype) (rest : List String) (last : String) :
    (insertEntry p rest last []).2 = false := by
  induction rest with
  | nil => rfl
  | cons c r ih => simp [insertEntry, assocGet, ih]

theorem insertEntry_conflict (p : NodePrototype) (comps : List String) (last : String) :
    ∀ cat : Category, (insertEntry p comps last cat).2 = leafConflict cat comps := by
  induction comps with
  | nil => intro cat; rfl
  | cons c rest ih =>
    intro cat
    cases hg : assocGet cat c with
    | none => simp [insertEntry, leafConflict, hg, insertEntry_fresh]
    | some entry =>
      cases entry with
      | node q => simp [insertEntry, leafConflict, hg]
      | category sub => simp [insertEntry, leafConflict, hg, ih sub]

/-- C7: registration fails exactly when a control name collides with an input
or output name (a panic in the source) or a proper prefix of the `::`-path
hits an existing leaf entry; on success the prototype is inserted into the
registry under its id. -/
theorem registration_conflicts (d : NodeDef) (reg : Registry) (cat : Category) :
    ((registerNode d reg cat).2.2.isSome ↔
      ((∃ p ∈ d.controls,
          (assocGet d.inputs p.1).isSome ∨ (assocGet d.outputs p.1).isSome) ∨
        leafConflict cat ((d.name.splitOn "::").dropLast) = true)) ∧
    ((registerNode d reg cat).2.2 = none →
      (registerNode d reg cat).1 = assocSet reg d.id d.prototype) := by
  cases hf : d.controls.find? (fun kc =>
      (assocGet d.inputs kc.1).isSome || (assocGet d.outputs kc.1).isSome) with
  | some kc =>
    have hmem := List.mem_of_find?_eq_some hf
    have hpred := List.find?_some hf
    have hreg : registerNode d reg cat = (reg, cat, some (.controlCollision kc.1)) := by
      unfold registerNode
      rw [hf]
    rw [hreg]
    constructor
    · constructor
      · intro _
        left
        refine ⟨kc, hmem, ?_⟩
        simpa using hpred
      · intro _
        rfl
    · intro h
      cases h
  | none =>
    have hnocol : ¬ ∃ p ∈ d.controls,
        (assocGet d.inputs p.1).isSome ∨ (assocGet d.outputs p.1).isSome := by
      rintro ⟨p, hp, hor⟩
      have hnp := List.find?_eq_none.mp hf p hp
      simp at hnp
      rcases hor with h1 | h2
      · rw [hnp.1] at h1
        cases h1
      · rw [hnp.2] at h2
        cases h2
    have hreg : registerNode d reg cat =
        (assocSet reg d.id d.prototype,
          (insertEntry d.prototype ((d.name.splitOn "::").dropLast)
            ((d.name.splitOn "::").getLastD "") cat).1,
          if (insertEntry d.prototype ((d.name.splitOn "::").dropLast)
            ((d.name.splitOn "::").getLastD "") cat).2 = true
          then some .categoryConflict else none) := by
      unfold registerNode
      rw [hf]
    rw [hreg]
    cases hw : (insertEntry d.prototype ((d.name.splitOn "::").dropLast)
        ((d.name.splitOn "::").getLastD "") cat).2
    · constructor
      · simp [hnocol]
        rw [← insertEntry_conflict d.prototype _ ((d.name.splitOn "::").getLastD "") cat, hw]
      · intro _
        rfl
    · constructor
      · simp
        right
        rw [← insertEntry_conflict d.prototype _ ((d.name.splitOn "::").getLastD "") cat, hw]
      · intro h
        simp at h

theorem leafConflict_nil (comps : List String) : leafConflict [] comps = false := by
  cases comps <;> rfl

/-- Witness for C7: a control/input name collision on "k" fails, and a
conflict-free definition is inserted into the registry under its id. -/
theorem registration_conflicts_witness :
    (registerNode ⟨"n1", "cat::n1", "N1", [("k", .float)], [], [("k", .showFloat 0)],
        fun r => .ok r⟩ [] []).2.2.isSome ∧
    (registerNode ⟨"n2", "cat::n2", "N2", [], [], [], fun r => .ok r⟩ [] []).1 =
      assocSet [] "n2"
        (NodeDef.prototype ⟨"n2", "cat::n2", "N2", [], [], [], fun r => .ok r⟩) := by
  constructor
  · exact (registration_conflicts _ [] []).1.mpr
      (Or.inl ⟨("k", .showFloat 0), by simp, Or.inl (by decide)⟩)
  · apply (registration_conflicts _ [] []).2
    have hiff := (registration_conflicts
      (⟨"n2", "cat::n2", "N2", [], [], [], fun r => .ok r⟩ : NodeDef) [] []).1
    have hno : ¬ ((registerNode
        (⟨"n2", "cat::n2", "N2", [], [], [], fun r => .ok r⟩ : NodeDef) [] []).2.2.isSome
          = true) := by
      rw [hiff]
      rintro (⟨p, hp, _⟩ | hl)
      · cases hp
      · rw [leafConflict_nil] at hl
        cases hl
    exact Option.not_isSome_iff_eq_none.mp hno

/-! ### Toposort correctness -/

theorem pickSource_mem {edges : List (Nat × Nat)} {rem : List Nat} {v : Nat}
    (h : pickSource edges rem = some v) : v ∈ rem :=
  List.mem_of_find?_eq_some h

theorem pickSource_no_incoming {edges : List (Nat × Nat)} {rem : List Nat} {v : Nat}
    (h : pickSource edges rem = some v) : ∀ u ∈ rem, (u, v) ∉ edges := by
  have hp := List.find?_some h
  simp at hp
  exact hp

theorem pickSource_none {edges : List (Nat × Nat)} {rem : List Nat}
    (h : pickSource edges rem = none) : ∀ v ∈ rem, ∃ u ∈ rem, (u, v) ∈ edges := by
  intro v hv
  have hp := List.find?_eq_none.mp h v hv
  simp at hp
  exact hp

theorem kahnAux_perm (edges : List (Nat × Nat)) :
    ∀ (fuel : Nat) (rem ord : List Nat),
      kahnAux edges fuel rem = some ord → ord.Perm rem := by
  intro fuel
  induction fuel with
  | zero =>
    intro rem ord h
    by_cases hr : rem = []
    · subst hr
      simp [kahnAux] at h
      subst h
      exact List.Perm.refl _
    · simp [kahnAux, hr] at h
  | succ fuel ih =>
    intro rem ord h
    by_cases hr : rem = []
    · subst hr
      simp [kahnAux] at h
      subst h
      exact List.Perm.refl _
    · rw [kahnAux, if_neg hr] at h
      cases hp : pickSource edges rem with
      | none => rw [hp] at h; cases h
      | some v =>
        rw [hp] at h
        have h' : (kahnAux edges fuel (rem.erase v)).map (fun ord => v :: ord) =
            some ord := h
        rw [Option.map_eq_some'] at h'
        obtain ⟨ord', ho, heq⟩ := h'
        subst heq
        have hperm := ih _ _ ho
        have hv := pickSource_mem hp
        exact (hperm.cons v).trans (List.perm_cons_erase hv).symm

theorem posIn_cons_self (l : List Nat) (x : Nat) : posIn (x :: l) x = 0 := by
  simp [posIn]

theorem posIn_cons_ne (l : List Nat) (x y : Nat) (h : x ≠ y) :
    posIn (y :: l) x = posIn l x + 1 := by
  simp [posIn, h]

theorem kahnAux_sound (edges : List (Nat × Nat)) :
    ∀ (fuel : Nat) (rem ord : List Nat),
      kahnAux edges fuel rem = some ord →
      ∀ u v, (u, v) ∈ edges → u ∈ rem → v ∈ rem →
        posIn ord u < posIn ord v := by
  intro fuel
  induction fuel with
  | zero =>
    intro rem ord h u v he hu hv
    by_cases hr : rem = []
    · subst hr; cases hu
    · simp [kahnAux, hr] at h
  | succ fuel ih =>
    intro rem ord h u v he hu hv
    by_cases hr : rem = []
    · subst hr; cases hu
    · rw [kahnAux, if_neg hr] at h
      cases hp : pickSource edges rem with
      | none => rw [hp] at h; cases h
      | some w =>
        rw [hp] at h
        have h' : (kahnAux edges fuel (rem.erase w)).map (fun ord => w :: ord) =
            some ord := h
        rw [Option.map_eq_some'] at h'
        obtain ⟨ord', ho, heq⟩ := h'
        subst heq
        have hvw : v ≠ w := fun hvw => pickSource_no_incoming hp u hu (hvw ▸ he)
        by_cases huw : u = w
        · rw [huw, posIn_cons_self, posIn_cons_ne _ _ _ hvw]
          exact Nat.succ_pos _
        · have hu' : u ∈ rem.erase w := (List.mem_erase_of_ne huw).mpr hu
          have hv' : v ∈ rem.erase w := (List.mem_erase_of_ne hvw).mpr hv
          have := ih _ _ ho u v he hu' hv'
          rw [posIn_cons_ne _ _ _ huw, posIn_cons_ne _ _ _ hvw]
          omega

theorem chain_head_source {E : Nat → Nat → Prop} :
    ∀ (l : List Nat) (a : Nat), List.Chain E a l → l ≠ [] → ∃ y, E a y := by
  intro l a hch hne
  cases l with
  | nil => exact absurd rfl hne
  | cons b t =>
    rcases List.chain_cons.mp hch with ⟨hab, _⟩
    exact ⟨b, hab⟩

theorem chain_dropLast_sources {E : Nat → Nat → Prop} :
    ∀ (l : List Nat) (a : Nat), List.Chain E a l →
      ∀ x ∈ l.dropLast, ∃ y, E x y := by
  intro l
  induction l with
  | nil => intro a _ x hx; cases hx
  | cons b t ih =>
    intro a hch x hx
    rcases List.chain_cons.mp hch with ⟨hab, hbt⟩
    cases t with
    | nil => cases hx
    | cons c t' =>
      rw [List.dropLast_cons₂] at hx
      rcases List.mem_cons.mp hx with rfl | hx'
      · exact chain_head_source _ x hbt (by simp)
      · exact ih b hbt x hx'

theorem cycle_sources {edges : List (Nat × Nat)} {c : List Nat} (hc : IsCycle edges c) :
    ∀ x ∈ c, ∃ y, (x, y) ∈ edges := by
  cases c with
  | nil => cases hc
  | cons v rest =>
    intro x hx
    have hch : List.Chain (fun a b => (a, b) ∈ edges) v (rest ++ [v]) := hc
    rcases List.mem_cons.mp hx with rfl | hx'
    · exact chain_head_source _ x hch (by simp)
    · apply chain_dropLast_sources _ v hch
      rw [List.dropLast_concat]
      exact hx'

theorem chain_posIn_lt {edges : List (Nat × Nat)} {ord rem : List Nat}
    (hmono : ∀ u v, (u, v) ∈ edges → u ∈ rem → v ∈ rem → posIn ord u < posIn ord v) :
    ∀ (l : List Nat) (a : Nat), List.Chain (fun p q => (p, q) ∈ edges) a l →
      a ∈ rem → (∀ x ∈ l, x ∈ rem) →
      ∀ hne : l ≠ [], posIn ord a < posIn ord (l.getLast hne) := by
  intro l
  induction l with
  | nil => intro a _ _ _ hne; exact absurd rfl hne
  | cons b t ih =>
    intro a hch ha hl hne
    rcases List.chain_cons.mp hch with ⟨hab, hbt⟩
    have hb : b ∈ rem := hl b (List.mem_cons_self _ _)
    cases t with
    | nil =>
      simp [List.getLast]
      exact hmono a b hab ha hb
    | cons c t' =>
      have hne' : c :: t' ≠ [] := by simp
      have htail : ∀ x ∈ c :: t', x ∈ rem := fun x hx => hl x (List.mem_cons_of_mem _ hx)
      have h2 := ih b hbt hb htail hne'
      have h1 := hmono a b hab ha hb
      rw [List.getLast_cons hne']
      omega

theorem sorted_no_cycle {edges : List (Nat × Nat)} {ord rem : List Nat}
    (hmono : ∀ u v, (u, v) ∈ edges → u ∈ rem → v ∈ rem → posIn ord u < posIn ord v)
    {c : List Nat} (hc : IsCycle edges c) (hsub : ∀ x ∈ c, x ∈ rem) : False := by
  cases c with
  | nil => cases hc
  | cons v rest =>
    have hch : List.Chain (fun p q => (p, q) ∈ edges) v (rest ++ [v]) := hc
    have hv : v ∈ rem := hsub v (List.mem_cons_self _ _)
    have htail : ∀ x ∈ rest ++ [v], x ∈ rem := by
      intro x hx
      rcases List.mem_append.mp hx with hx' | hx'
      · exact hsub x (List.mem_cons_of_mem _ hx')
      · rw [List.mem_singleton.mp hx']
        exact hv
    have hne : rest ++ [v] ≠ [] := by simp
    have := chain_posIn_lt hmono (rest ++ [v]) v hch hv htail hne
    rw [List.getLast_concat] at this
    omega

theorem chain_repeat_cycle {edges : List (Nat × Nat)} {u a : Nat} {l : List Nat}
    (hch : List.Chain (fun p q => (p, q) ∈ edges) u (a :: l))
    (hmem : u ∈ a :: l) :
    ∃ c, IsCycle edges c ∧ ∀ x ∈ c, x ∈ u :: a :: l := by
  obtain ⟨pre, post, hsplit⟩ := List.append_of_mem hmem
  rw [hsplit] at hch
  have hcyc : List.Chain (fun p q => (p, q) ∈ edges) u (pre ++ [u]) :=
    (List.chain_split.mp hch).1
  refine ⟨u :: pre, hcyc, ?_⟩
  intro x hx
  rcases List.mem_cons.mp hx with rfl | hx'
  · exact List.mem_cons_self _ _
  · apply List.mem_cons_of_mem
    rw [hsplit]
    exact List.mem_append_left _ hx'

theorem noSource_cycle_aux (edges : List (Nat × Nat)) (rem : List Nat)
    (hpred : ∀ v ∈ rem, ∃ u ∈ rem, (u, v) ∈ edges) :
    ∀ (k : Nat) (a : Nat) (l : List Nat), a ∈ rem → (∀ x ∈ l, x ∈ rem) →
      List.Chain (fun p q => (p, q) ∈ edges) a l → (a :: l).Nodup →
      rem.length ≤ (a :: l).length + k →
      ∃ c, IsCycle edges c ∧ ∀ x ∈ c, x ∈ rem := by
  intro k
  induction k with
  | zero =>
    intro a l ha hl hch hnd hlen
    obtain ⟨u, hu, he⟩ := hpred a ha
    by_cases hmem : u ∈ a :: l
    · obtain ⟨c, hc, hsub⟩ := chain_repeat_cycle (List.Chain.cons he hch) hmem
      refine ⟨c, hc, fun x hx => ?_⟩
      rcases List.mem_cons.mp (hsub x hx) with rfl | hx'
      · exact hu
      · rcases List.mem_cons.mp hx' with rfl | hx''
        · exact ha
        · exact hl x hx''
    · exfalso
      have hnd' : (u :: a :: l).Nodup := List.nodup_cons.mpr ⟨hmem, hnd⟩
      have hsub' : u :: a :: l ⊆ rem := by
        intro x hx
        rcases List.mem_cons.mp hx with rfl | hx'
        · exact hu
        · rcases List.mem_cons.mp hx' with rfl | hx''
          · exact ha
          · exact hl x hx''
      have := (hnd'.subperm hsub').length_le
      simp at this hlen
      omega
  | succ k ih =>
    intro a l ha hl hch hnd hlen
    obtain ⟨u, hu, he⟩ := hpred a ha
    by_cases hmem : u ∈ a :: l
    · obtain ⟨c, hc, hsub⟩ := chain_repeat_cycle (List.Chain.cons he hch) hmem
      refine ⟨c, hc, fun x hx => ?_⟩
      rcases List.mem_cons.mp (hsub x hx) with rfl | hx'
      · exact hu
      · rcases List.mem_cons.mp hx' with rfl | hx''
        · exact ha
        · exact hl x hx''
    · have hl' : ∀ x ∈ a :: l, x ∈ rem := by
        intro x hx
        rcases List.mem_cons.mp hx with rfl | hx'
        · exact ha
        · exact hl x hx'
      have hnd' : (u :: a :: l).Nodup := List.nodup_cons.mpr ⟨hmem, hnd⟩
      have hlen' : rem.length ≤ (u :: a :: l).length + k := by
        simp at hlen ⊢
        omega
      exact ih u (a :: l) hu hl' (List.Chain.cons he hch) hnd' hlen'

theorem kahnAux_none_cycle (edges : List (Nat × Nat)) :
    ∀ (fuel : Nat) (rem : List Nat), rem.length ≤ fuel →
      kahnAux edges fuel rem = none →
      ∃ c, IsCycle edges c ∧ ∀ x ∈ c, x ∈ rem := by
  intro fuel
  induction fuel with
  | zero =>
    intro rem hlen h
    have hr : rem = [] := List.length_eq_zero.mp (Nat.le_zero.mp hlen)
    subst hr
    simp [kahnAux] at h
  | succ fuel ih =>
    intro rem hlen h
    by_cases hr : rem = []
    · subst hr
      simp [kahnAux] at h
    · rw [kahnAux, if_neg hr] at h
      cases hp : pickSource edges rem with
      | none =>
        obtain ⟨v, hv⟩ := List.exists_mem_of_ne_nil rem hr
        exact noSource_cycle_aux edges rem (pickSource_none hp) rem.length v []
          hv (by intro x hx; cases hx) List.Chain.nil (by simp)
          (by simp)
      | some v =>
        rw [hp] at h
        have h' : (kahnAux edges fuel (rem.erase v)).map (fun ord => v :: ord) =
            none := h
        rw [Option.map_eq_none'] at h'
        have hv := pickSource_mem hp
        have hle : (rem.erase v).length ≤ fuel := by
          rw [List.length_erase_of_mem hv]
          have hpos : 0 < rem.length := List.length_pos.mpr hr
          omega
        obtain ⟨c, hc, hsub⟩ := ih (rem.erase v) hle h'
        exact ⟨c, hc, fun x hx => List.erase_subset _ _ (hsub x hx)⟩

theorem toposort_none_cycle {n : Nat} {edges : List (Nat × Nat)}
    (h : toposort n edges = none) : HasCycle edges := by
  obtain ⟨c, hc, _⟩ := kahnAux_none_cycle edges n (List.range n) (by simp) h
  exact ⟨c, hc⟩

theorem toposort_some_no_cycle {n : Nat} {edges : List (Nat × Nat)} {ord : List Nat}
    (h : toposort n edges = some ord) (hrange : ∀ p ∈ edges, p.1 < n) :
    ¬ HasCycle edges := by
  rintro ⟨c, hc⟩
  have hmem : ∀ x ∈ c, x ∈ List.range n := by
    intro x hx
    obtain ⟨y, he⟩ := cycle_sources hc x hx
    exact List.mem_range.mpr (hrange (x, y) he)
  exact sorted_no_cycle (kahnAux_sound edges n (List.range n) ord h) hc hmem

/-! ### Wire-resolution lemmas -/

theorem resolveWire_destruct {nodes : List Node} {w : Wire} {e : REdge}
    (h : resolveWire nodes w = some e) :
    ∃ a b, nodes.get? w.outNode = some a ∧ nodes.get? w.inNode = some b ∧
      a.output_name w.outPort = some e.outName ∧
      b.input_name w.inPort = some e.inName ∧
      e.src = w.outNode ∧ e.dst = w.inNode := by
  unfold resolveWire at h
  cases ha : nodes.get? w.outNode with
  | none => rw [ha] at h; cases h
  | some a =>
    rw [ha] at h
    cases hb : nodes.get? w.inNode with
    | none => rw [hb] at h; cases h
    | some b =>
      rw [hb] at h
      have h2 : (match a.output_name w.outPort, b.input_name w.inPort with
          | some outName, some inName =>
            some (⟨w.outNode, w.inNode, outName, inName⟩ : REdge)
          | _, _ => none) = some e := h
      cases ho : a.output_name w.outPort with
      | none => rw [ho] at h2; cases h2
      | some outName =>
        rw [ho] at h2
        cases hi : b.input_name w.inPort with
        | none => rw [hi] at h2; cases h2
        | some inName =>
          rw [hi] at h2
          cases h2
          exact ⟨a, b, rfl, rfl, ho, hi, rfl, rfl⟩

theorem resolveWire_range {nodes : List Node} {w : Wire} {e : REdge}
    (h : resolveWire nodes w = some e) :
    e.src < nodes.length ∧ e.dst < nodes.length := by
  obtain ⟨a, b, ha, hb, _, _, hsrc, hdst⟩ := resolveWire_destruct h
  obtain ⟨h1, _⟩ := List.get?_eq_some.mp ha
  obtain ⟨h2, _⟩ := List.get?_eq_some.mp hb
  rw [hsrc, hdst]
  exact ⟨h1, h2⟩

theorem resolveWires_forall {nodes : List Node} :
    ∀ {wires : List Wire} {es : List REdge}, resolveWires nodes wires = some es →
      (∀ e ∈ es, ∃ w ∈ wires, resolveWire nodes w = some e) ∧
      (∀ w ∈ wires, ∃ e ∈ es, resolveWire nodes w = some e) := by
  intro wires
  induction wires with
  | nil =>
    intro es h
    cases h
    exact ⟨fun e he => absurd he (List.not_mem_nil e), fun w hw => absurd hw (List.not_mem_nil w)⟩
  | cons w ws ih =>
    intro es h
    unfold resolveWires at h
    cases hw : resolveWire nodes w with
    | none => rw [hw] at h; cases h
    | some e' =>
      rw [hw] at h
      cases hws : resolveWires nodes ws with
      | none => rw [hws] at h; cases h
      | some es' =>
        rw [hws] at h
        cases h
        obtain ⟨ih1, ih2⟩ := ih hws
        constructor
        · intro e he
          rcases List.mem_cons.mp he with rfl | he'
          · exact ⟨w, List.mem_cons_self _ _, hw⟩
          · obtain ⟨w', hw', hr⟩ := ih1 e he'
            exact ⟨w', List.mem_cons_of_mem _ hw', hr⟩
        · intro w' hw'
          rcases List.mem_cons.mp hw' with rfl | hw''
          · exact ⟨e', List.mem_cons_self _ _, hw⟩
          · obtain ⟨e, he, hr⟩ := ih2 w' hw''
            exact ⟨e, List.mem_cons_of_mem _ he, hr⟩

theorem stepNode_error_lua (edges : List REdge) (v : Nat) (st : EngState) :
    ∀ e, (stepNode edges v st).2 = some e → ∃ msg, e = .luaErr msg := by
  intro e h
  unfold stepNode at h
  dsimp only [] at h
  split at h
  · cases h
    exact ⟨_, rfl⟩
  · split at h
    · cases h
      exact ⟨_, rfl⟩
    · cases h

theorem runLoop_error_lua (edges : List REdge) :
    ∀ (l : List Nat) (st : EngState) (e : RunError),
      (runLoop edges l st).2 = some e → ∃ msg, e = .luaErr msg := by
  intro l
  induction l with
  | nil => intro st e h; cases h
  | cons v rest ih =>
    intro st e h
    unfold runLoop at h
    cases hs : stepNode edges v st with
    | mk st' err =>
      rw [hs] at h
      cases err with
      | none => exact ih st' e h
      | some e' =>
        have h' : some e' = some e := h
        injection h' with h''
        subst h''
        exact stepNode_error_lua edges v st e' (by rw [hs])

/-- C1: for every wiring whose graph is acyclic, the scheduler produces an
order in which every edge's source strictly precedes its target. -/
theorem scheduler_topological_order (nodes : List Node) (wires : List Wire)
    (es : List REdge) (hres : resolveWires nodes wires = some es)
    (hacyc : ¬ HasCycle (es.map (fun e => (e.src, e.dst)))) :
    ∃ ord, toposort nodes.length (es.map (fun e => (e.src, e.dst))) = some ord ∧
      ∀ e ∈ es, posIn ord e.src < posIn ord e.dst := by
  cases ht : toposort nodes.length (es.map (fun e => (e.src, e.dst))) with
  | none => exact absurd (toposort_none_cycle ht) hacyc
  | some ord =>
    refine ⟨ord, rfl, ?_⟩
    intro e he
    obtain ⟨w, _, hwe⟩ := (resolveWires_forall hres).1 e he
    obtain ⟨hsrc, hdst⟩ := resolveWire_range hwe
    exact kahnAux_sound _ nodes.length _ ord ht e.src e.dst
      (List.mem_map_of_mem _ he) (List.mem_range.mpr hsrc) (List.mem_range.mpr hdst)

/-- Witness for C1: the Const-to-Double graph is acyclic and is scheduled
with Const before Double. -/
theorem scheduler_topological_order_witness :
    ∃ ord, toposort 2 [(0, 1)] = some ord ∧
      ∀ e ∈ ([⟨0, 1, "x", "y"⟩] : List REdge), posIn ord e.src < posIn ord e.dst := by
  have hres : resolveWires [constNode, doubleNode] [⟨0, 0, 1, 0⟩] =
      some [⟨0, 1, "x", "y"⟩] := by decide
  have hacyc : ¬ HasCycle
      (([⟨0, 1, "x", "y"⟩] : List REdge).map (fun e => (e.src, e.dst))) :=
    toposort_some_no_cycle (by decide : toposort 2 [(0, 1)] = some [0, 1]) (by decide)
  exact scheduler_topological_order [constNode, doubleNode] [⟨0, 0, 1, 0⟩] _ hres hacyc

/-- C2: the run fails with the cycle error exactly when the directed graph
built from the wires has a directed cycle, and on that failure no node was
invoked and the node collection is untouched. -/
theorem cycle_failure_iff (nodes : List Node) (wires : List Wire) (es : List REdge)
    (hres : resolveWires nodes wires = some es) :
    ((engineRun nodes wires).error = some .cycle ↔
      HasCycle (es.map (fun e => (e.src, e.dst)))) ∧
    ((engineRun nodes wires).error = some .cycle →
      (engineRun nodes wires).nodes = nodes ∧ (engineRun nodes wires).invoked = []) := by
  cases ht : toposort nodes.length (es.map (fun e => (e.src, e.dst))) with
  | none =>
    have heq : engineRun nodes wires = ⟨nodes, [], [], [], some .cycle⟩ := by
      unfold engineRun
      simp only [hres, ht]
    rw [heq]
    exact ⟨⟨fun _ => toposort_none_cycle ht, fun _ => rfl⟩, fun _ => ⟨rfl, rfl⟩⟩
  | some ord =>
    have heq : engineRun nodes wires =
        ⟨(runLoop es ord ⟨nodes, [], [], []⟩).1.nodes,
          (runLoop es ord ⟨nodes, [], [], []⟩).1.inputs,
          (runLoop es ord ⟨nodes, [], [], []⟩).1.outRecs,
          (runLoop es ord ⟨nodes, [], [], []⟩).1.invoked,
          (runLoop es ord ⟨nodes, [], [], []⟩).2⟩ := by
      unfold engineRun
      simp only [hres, ht]
    have hnotcycle : ¬ (engineRun nodes wires).error = some .cycle := by
      rw [heq]
      intro hc
      obtain ⟨msg, hmsg⟩ := runLoop_error_lua es ord _ _ hc
      cases hmsg
    constructor
    · constructor
      · intro hc
        exact absurd hc hnotcycle
      · intro hcyc
        exfalso
        have hrange : ∀ p ∈ es.map (fun e => (e.src, e.dst)), p.1 < nodes.length := by
          intro p hp
          obtain ⟨e, he, hpe⟩ := List.mem_map.mp hp
          obtain ⟨w, _, hwe⟩ := (resolveWires_forall hres).1 e he
          rw [← hpe]
          exact (resolveWire_range hwe).1
        exact absurd hcyc (toposort_some_no_cycle ht hrange)
    · intro hc
      exact absurd hc hnotcycle

/-- Witness for C2: two relay nodes wired into a loop fail with the cycle
error, leave the node collection untouched, and the theorem certifies the
2-cycle; the acyclic Const-to-Double graph does not produce the cycle error. -/
theorem cycle_failure_iff_witness :
    HasCycle (([⟨0, 1, "o", "i"⟩, ⟨1, 0, "o", "i"⟩] : List REdge).map
      (fun e => (e.src, e.dst))) ∧
    (engineRun [relayNode, relayNode] [⟨0, 0, 1, 0⟩, ⟨1, 0, 0, 0⟩]).nodes =
      [relayNode, relayNode] := by
  have hres : resolveWires [relayNode, relayNode] [⟨0, 0, 1, 0⟩, ⟨1, 0, 0, 0⟩] =
      some [⟨0, 1, "o", "i"⟩, ⟨1, 0, "o", "i"⟩] := by decide
  have hthm := cycle_failure_iff [relayNode, relayNode] [⟨0, 0, 1, 0⟩, ⟨1, 0, 0, 0⟩] _ hres
  have herr : (engineRun [relayNode, relayNode] [⟨0, 0, 1, 0⟩, ⟨1, 0, 0, 0⟩]).error =
      some .cycle := by decide
  exact ⟨hthm.1.mp herr, (hthm.2 herr).1⟩

/-! ### Engine-loop infrastructure -/

theorem list_getD_set_ne {α : Type} (l : List α) (x d : α) :
    ∀ (i j : Nat), j ≠ i → (l.set i x).getD j d = l.getD j d := by
  induction l with
  | nil => intro i j _; simp
  | cons a rest ih =>
    intro i j hne
    cases i with
    | zero =>
      cases j with
      | zero => exact absurd rfl hne
      | succ j' => simp [List.set, List.getD]
    | succ i' =>
      cases j with
      | zero => simp [List.set, List.getD]
      | succ j' =>
        simp only [List.set, List.getD_cons_succ]
        exact ih i' j' (fun h => hne (by rw [h]))

theorem list_set_getD_self {α : Type} (l : List α) (d : α) :
    ∀ (v : Nat), v < l.length → l.set v (l.getD v d) = l := by
  induction l with
  | nil => intro v h; cases h
  | cons a rest ih =>
    intro v h
    cases v with
    | zero => simp [List.getD]
    | succ v' =>
      simp only [List.getD_cons_succ, List.set]
      rw [ih v' (by simpa using h)]

theorem list_getD_mem {α : Type} (l : List α) (d : α) (v : Nat) (h : v < l.length) :
    l.getD v d ∈ l := by
  rw [List.getD_eq_getElem _ _ h]
  exact List.getElem_mem h

theorem runLoop_cons (edges : List REdge) (v : Nat) (rest : List Nat) (st : EngState) :
    runLoop edges (v :: rest) st =
      (match stepNode edges v st with
        | (st', none) => runLoop edges rest st'
        | (st', some e) => (st', some e)) := rfl

theorem runLoop_append (edges : List REdge) (l₁ l₂ : List Nat) (st : EngState) :
    runLoop edges (l₁ ++ l₂) st =
      (match runLoop edges l₁ st with
        | (st', none) => runLoop edges l₂ st'
        | (st', some e) => (st', some e)) := by
  induction l₁ generalizing st with
  | nil => rfl
  | cons v rest ih =>
    rw [List.cons_append, runLoop_cons, runLoop_cons]
    cases hs : stepNode edges v st with
    | mk st' err =>
      cases err with
      | none => exact ih st'
      | some e => rfl

theorem runLoop_append_ok {edges : List REdge} {l₁ l₂ : List Nat} {st st'' : EngState}
    (h : runLoop edges (l₁ ++ l₂) st = (st'', none)) :
    ∃ st', runLoop edges l₁ st = (st', none) ∧ runLoop edges l₂ st' = (st'', none) := by
  rw [runLoop_append] at h
  cases hr : runLoop edges l₁ st with
  | mk st' err =>
    rw [hr] at h
    cases err with
    | none => exact ⟨st', rfl, h⟩
    | some e =>
      have := congrArg Prod.snd h
      simp at this

theorem stepNode_invoked (edges : List REdge) (v : Nat) (st : EngState) :
    (stepNode edges v st).1.invoked = st.invoked ++ [v] := by
  unfold stepNode
  dsimp only []
  split
  · rfl
  · split
    · rfl
    · rfl

theorem stepNode_nodes_length (edges : List REdge) (v : Nat) (st : EngState) :
    (stepNode edges v st).1.nodes.length = st.nodes.length := by
  unfold stepNode
  dsimp only []
  split
  · rfl
  · split
    · simp [List.length_set]
    · simp [List.length_set]

theorem stepNode_nodes_ne (edges : List REdge) (v : Nat) (st : EngState)
    (u : Nat) (hne : u ≠ v) (d : Node) :
    (stepNode edges v st).1.nodes.getD u d = st.nodes.getD u d := by
  unfold stepNode
  dsimp only []
  split
  · rfl
  · split
    · exact list_getD_set_ne _ _ _ _ _ hne
    · exact list_getD_set_ne _ _ _ _ _ hne

theorem stepNode_outRecs_ne (edges : List REdge) (v : Nat) (st : EngState)
    (u : Nat) (hne : u ≠ v) :
    assocGet (stepNode edges v st).1.outRecs u = assocGet st.outRecs u := by
  unfold stepNode
  dsimp only []
  split
  · rfl
  · split
    · exact assocGet_assocSet_ne _ _ _ _ hne
    · exact assocGet_assocSet_ne _ _ _ _ hne

theorem writeBack_keys (out : Record) :
    ∀ data : List (String × Control),
      (writeBack data out).1.map Prod.fst = data.map Prod.fst := by
  intro data
  induction data with
  | nil => rfl
  | cons nc rest ih =>
    obtain ⟨name, c⟩ := nc
    unfold writeBack
    dsimp only []
    split
    · simp [ih]
    · split
      · simp [ih]
      · simp

theorem stepNode_keys (edges : List REdge) (v : Nat) (st : EngState) (u : Nat) :
    ((stepNode edges v st).1.nodes.getD u default).data.map Prod.fst =
      (st.nodes.getD u default).data.map Prod.fst := by
  by_cases hne : u = v
  · subst hne
    by_cases hu : u < st.nodes.length
    · unfold stepNode
      dsimp only []
      split
      · rfl
      · split
        · rw [List.getD_eq_getElem _ _ (by simpa [List.length_set] using hu)]
          rw [List.getElem_set_self]
          · exact writeBack_keys _ _
        · rw [List.getD_eq_getElem _ _ (by simpa [List.length_set] using hu)]
          rw [List.getElem_set_self]
          · exact writeBack_keys _ _
    · have hset : ∀ x, st.nodes.set u x = st.nodes :=
        fun x => List.set_eq_of_length_le (Nat.le_of_not_lt hu)
      unfold stepNode
      dsimp only []
      split
      · rfl
      · split
        · rw [hset]
        · rw [hset]
  · rw [stepNode_nodes_ne edges v st u hne default]

theorem runLoop_nodes_length (edges : List REdge) :
    ∀ (l : List Nat) (st : EngState),
      (runLoop edges l st).1.nodes.length = st.nodes.length := by
  intro l
  induction l with
  | nil => intro st; rfl
  | cons v rest ih =>
    intro st
    rw [runLoop_cons]
    cases hs : stepNode edges v st with
    | mk st' err =>
      have hlen : st'.nodes.length = st.nodes.length := by
        have := stepNode_nodes_length edges v st
        rw [hs] at this
        exact this
      cases err with
      | none => rw [ih st', hlen]
      | some e => exact hlen

theorem runLoop_nodes_ne (edges : List REdge) :
    ∀ (l : List Nat) (st : EngState) (u : Nat), u ∉ l →
      (runLoop edges l st).1.nodes.getD u default = st.nodes.getD u default := by
  intro l
  induction l with
  | nil => intro st u _; rfl
  | cons v rest ih =>
    intro st u hu
    rw [runLoop_cons]
    have hune : u ≠ v := fun h => hu (h ▸ List.mem_cons_self _ _)
    have hurest : u ∉ rest := fun h => hu (List.mem_cons_of_mem _ h)
    cases hs : stepNode edges v st with
    | mk st' err =>
      have hstep : st'.nodes.getD u default = st.nodes.getD u default := by
        have := stepNode_nodes_ne edges v st u hune default
        rw [hs] at this
        exact this
      cases err with
      | none => rw [ih st' u hurest, hstep]
      | some e => exact hstep

theorem runLoop_outRecs_ne (edges : List REdge) :
    ∀ (l : List Nat) (st : EngState) (u : Nat), u ∉ l →
      assocGet (runLoop edges l st).1.outRecs u = assocGet st.outRecs u := by
  intro l
  induction l with
  | nil => intro st u _; rfl
  | cons v rest ih =>
    intro st u hu
    rw [runLoop_cons]
    have hune : u ≠ v := fun h => hu (h ▸ List.mem_cons_self _ _)
    have hurest : u ∉ rest := fun h => hu (List.mem_cons_of_mem _ h)
    cases hs : stepNode edges v st with
    | mk st' err =>
      have hstep : assocGet st'.outRecs u = assocGet st.outRecs u := by
        have := stepNode_outRecs_ne edges v st u hune
        rw [hs] at this
        exact this
      cases err with
      | none => rw [ih st' u hurest, hstep]
      | some e => exact hstep

theorem runLoop_keys (edges : List REdge) :
    ∀ (l : List Nat) (st : EngState) (u : Nat),
      ((runLoop edges l st).1.nodes.getD u default).data.map Prod.fst =
        ((st.nodes.getD u default)).data.map Prod.fst := by
  intro l
  induction l with
  | nil => intro st u; rfl
  | cons v rest ih =>
    intro st u
    rw [runLoop_cons]
    cases hs : stepNode edges v st with
    | mk st' err =>
      have hstep : (st'.nodes.getD u default).data.map Prod.fst =
          ((st.nodes.getD u default)).data.map Prod.fst := by
        have := stepNode_keys edges v st u
        rw [hs] at this
        exact this
      cases err with
      | none => rw [ih st' u, hstep]
      | some e => exact hstep

theorem runLoop_invoked_ok (edges : List REdge) :
    ∀ (l : List Nat) (st st' : EngState), runLoop edges l st = (st', none) →
      st'.invoked = st.invoked ++ l := by
  intro l
  induction l with
  | nil =>
    intro st st' h
    cases h
    simp
  | cons v rest ih =>
    intro st st' h
    rw [runLoop_cons] at h
    cases hs : stepNode edges v st with
    | mk st1 err =>
      rw [hs] at h
      have hinv : st1.invoked = st.invoked ++ [v] := by
        have := stepNode_invoked edges v st
        rw [hs] at this
        exact this
      cases err with
      | none =>
        rw [ih st1 st' h, hinv]
        simp
      | some e =>
        have := congrArg Prod.snd h
        simp at this

theorem recGet_mkRecord_not_mem (name : String) :
    ∀ (data : List (String × Control)) (r : Record),
      name ∉ data.map Prod.fst →
      recGet (mkRecord data r) name = recGet r name := by
  intro data
  induction data with
  | nil => intro r _; rfl
  | cons nc rest ih =>
    intro r hname
    have h1 : name ≠ nc.1 := by
      intro h
      exact hname (by rw [h]; exact List.mem_map_of_mem _ (List.mem_cons_self _ _))
    have h2 : name ∉ rest.map Prod.fst := by
      intro h
      rcases List.mem_map.mp h with ⟨p, hp, hpe⟩
      exact hname (hpe ▸ List.mem_map_of_mem Prod.fst (List.mem_cons_of_mem _ hp))
    show recGet (mkRecord rest (recSet r nc.1 nc.2.get_value)) name = recGet r name
    rw [ih _ h2, recGet_recSet_ne _ _ _ _ h1]

theorem recGet_mkRecord_mem (name : String) (c : Control) :
    ∀ (data : List (String × Control)) (r : Record),
      (data.map Prod.fst).Nodup → (name, c) ∈ data →
      recGet (mkRecord data r) name = c.get_value := by
  intro data
  induction data with
  | nil => intro r _ hm; cases hm
  | cons nc rest ih =>
    intro r hnd hm
    rw [List.map_cons] at hnd
    have hnd' := List.nodup_cons.mp hnd
    rcases List.mem_cons.mp hm with heq | hm'
    · subst heq
      have hmem : name ∉ rest.map Prod.fst := by simpa using hnd'.1
      show recGet (mkRecord rest (recSet r name c.get_value)) name = c.get_value
      rw [recGet_mkRecord_not_mem name rest _ hmem]
      exact recGet_recSet_self _ _ _
    · show recGet (mkRecord rest (recSet r nc.1 nc.2.get_value)) name = c.get_value
      exact ih _ hnd'.2 hm'

theorem set_value_get_value (c : Control) : c.set_value c.get_value = (c, none) := by
  cases c <;> rfl

theorem writeBack_echo (out : Record) :
    ∀ (data : List (String × Control)),
      (∀ name c, (name, c) ∈ data → recGet out name = c.get_value) →
      writeBack data out = (data, none) := by
  intro data
  induction data with
  | nil => intro _; rfl
  | cons nc rest ih =>
    intro hvals
    obtain ⟨name, c⟩ := nc
    have hv : recGet out name = c.get_value := hvals name c (List.mem_cons_self _ _)
    have hrest := ih (fun n c2 hm => hvals n c2 (List.mem_cons_of_mem _ hm))
    unfold writeBack
    rw [hv]
    cases c with
    | slider value mn mx =>
      show ((name, Control.slider value mn mx) :: (writeBack rest out).1,
        (writeBack rest out).2) = ((name, Control.slider value mn mx) :: rest, none)
      rw [hrest]
    | showFloat value =>
      show ((name, Control.showFloat value) :: (writeBack rest out).1,
        (writeBack rest out).2) = ((name, Control.showFloat value) :: rest, none)
      rw [hrest]

theorem stepNode_echo (edges : List REdge) (v : Nat) (st : EngState)
    (hv : v < st.nodes.length)
    (hecho : ∀ r, (st.nodes.getD v default).prototype.run r = .ok r)
    (hnodup : ((st.nodes.getD v default).data.map Prod.fst).Nodup) :
    (stepNode edges v st).1.nodes = st.nodes ∧ (stepNode edges v st).2 = none := by
  have hwb : writeBack (st.nodes.getD v default).data
      (mkRecord (st.nodes.getD v default).data ((assocGet st.inputs v).getD [])) =
      ((st.nodes.getD v default).data, none) := by
    apply writeBack_echo
    intro name c hm
    exact recGet_mkRecord_mem name c _ _ hnodup hm
  have heta : Node.mk (st.nodes.getD v default).prototype
      (st.nodes.getD v default).data = st.nodes.getD v default := rfl
  unfold stepNode
  simp only [hecho, hwb]
  rw [heta, list_set_getD_self st.nodes default v hv]
  refine ⟨?_, ?_⟩ <;> first
    | rfl
    | trivial

theorem runLoop_echo (edges : List REdge) :
    ∀ (l : List Nat) (st : EngState),
      (∀ v ∈ l, v < st.nodes.length) →
      (∀ n ∈ st.nodes, ∀ r, n.prototype.run r = .ok r) →
      (∀ n ∈ st.nodes, (n.data.map Prod.fst).Nodup) →
      (runLoop edges l st).1.nodes = st.nodes ∧ (runLoop edges l st).2 = none := by
  intro l
  induction l with
  | nil => intro st _ _ _; exact ⟨rfl, rfl⟩
  | cons v rest ih =>
    intro st hlt hecho hnodup
    have hv : v < st.nodes.length := hlt v (List.mem_cons_self _ _)
    have hmem : st.nodes.getD v default ∈ st.nodes := list_getD_mem _ _ _ hv
    have hstep := stepNode_echo edges v st hv
      (hecho _ hmem) (hnodup _ hmem)
    rw [runLoop_cons]
    cases hs : stepNode edges v st with
    | mk st' err =>
      rw [hs] at hstep
      obtain ⟨hnodes, herr⟩ := hstep
      cases err with
      | some e => cases herr
      | none =>
        have hres := ih st' (by rw [hnodes]; exact fun u hu => hlt u (List.mem_cons_of_mem _ hu))
          (by rw [hnodes]; exact hecho) (by rw [hnodes]; exact hnodup)
        rw [hres.1, hnodes] at *
        exact ⟨hres.1.trans hnodes, hres.2⟩

/-- C8: with every behaviour an echo (outputs = inputs), a run succeeds and
leaves every node's control data — indeed the whole node collection —
unchanged, so repeated runs return identical results. -/
theorem echo_idempotent (nodes : List Node) (wires : List Wire)
    (es : List REdge) (ord : List Nat)
    (hres : resolveWires nodes wires = some es)
    (htopo : toposort nodes.length (es.map (fun e => (e.src, e.dst))) = some ord)
    (hecho : ∀ n ∈ nodes, ∀ r, n.prototype.run r = .ok r)
    (hnodup : ∀ n ∈ nodes, (n.data.map Prod.fst).Nodup) :
    (engineRun nodes wires).nodes = nodes ∧ (engineRun nodes wires).error = none ∧
    engineRun (engineRun nodes wires).nodes wires = engineRun nodes wires := by
  have hperm := kahnAux_perm _ nodes.length _ _ htopo
  have hord : ∀ v ∈ ord, v < nodes.length := by
    intro v hv
    exact List.mem_range.mp (hperm.mem_iff.mp hv)
  have hrun := runLoop_echo es ord ⟨nodes, [], [], []⟩ hord hecho hnodup
  have heq : engineRun nodes wires =
      ⟨(runLoop es ord ⟨nodes, [], [], []⟩).1.nodes,
        (runLoop es ord ⟨nodes, [], [], []⟩).1.inputs,
        (runLoop es ord ⟨nodes, [], [], []⟩).1.outRecs,
        (runLoop es ord ⟨nodes, [], [], []⟩).1.invoked,
        (runLoop es ord ⟨nodes, [], [], []⟩).2⟩ := by
    unfold engineRun
    simp only [hres, htopo]
  rw [heq]
  refine ⟨hrun.1, hrun.2, ?_⟩
  show engineRun (runLoop es ord ⟨nodes, [], [], []⟩).1.nodes wires = _
  conv_lhs => rw [hrun.1]
  exact heq

/-- Witness for C8 at spec Scenario 2: a slider node (value 3 in [0, 10])
with an identity behaviour keeps its control data across a run. -/
theorem echo_idempotent_witness :
    (engineRun [sliderEchoNode] []).nodes = [sliderEchoNode] ∧
    (engineRun [sliderEchoNode] []).error = none := by
  have h := echo_idempotent [sliderEchoNode] [] [] [0] rfl (by decide)
    (by
      intro n hn r
      rcases List.mem_singleton.mp hn with rfl
      rfl)
    (by
      intro n hn
      rcases List.mem_singleton.mp hn with rfl
      decide)
  exact ⟨h.1, h.2.1⟩

theorem stepNode_run_error (edges : List REdge) (v : Nat) (st : EngState) (msg : String)
    (hfail : (st.nodes.getD v default).prototype.run
        (mkRecord (st.nodes.getD v default).data ((assocGet st.inputs v).getD [])) =
      .error msg) :
    stepNode edges v st =
      ({ st with
          inputs := assocSet st.inputs v
            (mkRecord (st.nodes.getD v default).data ((assocGet st.inputs v).getD []))
          invoked := st.invoked ++ [v] },
        some (.luaErr msg)) := by
  unfold stepNode
  simp only [hfail]

/-- C5: when a node's behaviour fails, the run stops right there — the error
is surfaced unchanged, no later node in the order is invoked, and the node
collection keeps every control mutation the earlier nodes already made. -/
theorem behavior_failure_aborts (nodes : List Node) (wires : List Wire)
    (es : List REdge) (ord done rest : List Nat) (v : Nat) (msg : String)
    (hres : resolveWires nodes wires = some es)
    (htopo : toposort nodes.length (es.map (fun e => (e.src, e.dst))) = some ord)
    (hsplit : ord = done ++ v :: rest)
    (hdone : (runLoop es done ⟨nodes, [], [], []⟩).2 = none)
    (hfail : ((runLoop es done ⟨nodes, [], [], []⟩).1.nodes.getD v default).prototype.run
        (mkRecord ((runLoop es done ⟨nodes, [], [], []⟩).1.nodes.getD v default).data
          ((assocGet (runLoop es done ⟨nodes, [], [], []⟩).1.inputs v).getD [])) =
      .error msg) :
    (engineRun nodes wires).error = some (.luaErr msg) ∧
    (engineRun nodes wires).invoked = done ++ [v] ∧
    (engineRun nodes wires).nodes = (runLoop es done ⟨nodes, [], [], []⟩).1.nodes := by
  have heq : engineRun nodes wires =
      ⟨(runLoop es ord ⟨nodes, [], [], []⟩).1.nodes,
        (runLoop es ord ⟨nodes, [], [], []⟩).1.inputs,
        (runLoop es ord ⟨nodes, [], [], []⟩).1.outRecs,
        (runLoop es ord ⟨nodes, [], [], []⟩).1.invoked,
        (runLoop es ord ⟨nodes, [], [], []⟩).2⟩ := by
    unfold engineRun
    simp only [hres, htopo]
  cases hP : runLoop es done ⟨nodes, [], [], []⟩ with
  | mk stP errP =>
    rw [hP] at hdone hfail
    have herrP : errP = none := hdone
    subst herrP
    have hinv : stP.invoked = done := by
      have := runLoop_invoked_ok es done ⟨nodes, [], [], []⟩ stP hP
      simpa using this
    have hstep := stepNode_run_error es v stP msg hfail
    have hloop : runLoop es ord ⟨nodes, [], [], []⟩ =
        ({ stP with
            inputs := assocSet stP.inputs v
              (mkRecord ((stP.nodes.getD v default)).data ((assocGet stP.inputs v).getD []))
            invoked := stP.invoked ++ [v] },
          some (.luaErr msg)) := by
      rw [hsplit, runLoop_append, hP]
      show runLoop es (v :: rest) stP = _
      rw [runLoop_cons, hstep]
    rw [heq, hloop]
    refine ⟨rfl, ?_, rfl⟩
    show stP.invoked ++ [v] = done ++ [v]
    rw [hinv]

/-- Witness for C5: a single always-failing node surfaces its error "boom"
unchanged, with exactly that node invoked. -/
theorem behavior_failure_aborts_witness :
    (engineRun [failNode] []).error = some (.luaErr "boom") ∧
    (engineRun [failNode] []).invoked = [] ++ [0] ∧
    (engineRun [failNode] []).nodes =
      (runLoop [] [] ⟨[failNode], [], [], []⟩).1.nodes :=
  behavior_failure_aborts [failNode] [] [] [0] [] [] 0 "boom" rfl (by decide) rfl rfl rfl

theorem list_getD_set {α : Type} (l : List α) (x d : α) :
    ∀ (v : Nat), v < l.length → (l.set v x).getD v d = x := by
  induction l with
  | nil => intro v h; cases h
  | cons a rest ih =>
    intro v h
    cases v with
    | zero => rfl
    | succ v' => exact ih v' (by simpa using h)

theorem engineRun_ok_destruct {nodes : List Node} {wires : List Wire}
    (hok : (engineRun nodes wires).error = none) :
    ∃ es ord stF, resolveWires nodes wires = some es ∧
      toposort nodes.length (es.map (fun e => (e.src, e.dst))) = some ord ∧
      runLoop es ord ⟨nodes, [], [], []⟩ = (stF, none) ∧
      engineRun nodes wires = ⟨stF.nodes, stF.inputs, stF.outRecs, stF.invoked, none⟩ := by
  cases hres : resolveWires nodes wires with
  | none =>
    have heq : engineRun nodes wires = ⟨nodes, [], [], [], some .panic⟩ := by
      unfold engineRun
      simp only [hres]
    rw [heq] at hok
    cases hok
  | some es =>
    cases ht : toposort nodes.length (es.map (fun e => (e.src, e.dst))) with
    | none =>
      have heq : engineRun nodes wires = ⟨nodes, [], [], [], some .cycle⟩ := by
        unfold engineRun
        simp only [hres, ht]
      rw [heq] at hok
      cases hok
    | some ord =>
      have heq : engineRun nodes wires =
          ⟨(runLoop es ord ⟨nodes, [], [], []⟩).1.nodes,
            (runLoop es ord ⟨nodes, [], [], []⟩).1.inputs,
            (runLoop es ord ⟨nodes, [], [], []⟩).1.outRecs,
            (runLoop es ord ⟨nodes, [], [], []⟩).1.invoked,
            (runLoop es ord ⟨nodes, [], [], []⟩).2⟩ := by
        unfold engineRun
        simp only [hres, ht]
      cases hL : runLoop es ord ⟨nodes, [], [], []⟩ with
      | mk stF err =>
        rw [hL] at heq
        have herr : err = none := by
          rw [heq] at hok
          exact hok
        subst herr
        exact ⟨es, ord, stF, rfl, ht, hL, heq⟩

theorem stepNode_ok_destruct {edges : List REdge} {v : Nat} {st stI : EngState}
    (h : stepNode edges v st = (stI, none)) :
    ∃ out, (st.nodes.getD v default).prototype.run
        (mkRecord (st.nodes.getD v default).data ((assocGet st.inputs v).getD [])) =
          .ok out ∧
      (writeBack (st.nodes.getD v default).data out).2 = none ∧
      stI.nodes = st.nodes.set v
        (Node.mk (st.nodes.getD v default).prototype
          (writeBack (st.nodes.getD v default).data out).1) ∧
      assocGet stI.outRecs v = some out ∧
      stI.inputs = (edges.filter (fun e => e.src = v)).foldl
        (fun m e => assocSet m e.dst
          (recSet ((assocGet m e.dst).getD []) e.inName (recGet out e.outName)))
        (assocSet st.inputs v (mkRecord (st.nodes.getD v default).data
          ((assocGet st.inputs v).getD []))) := by
  unfold stepNode at h
  dsimp only [] at h
  cases hrun : (st.nodes.getD v default).prototype.run
      (mkRecord (st.nodes.getD v default).data ((assocGet st.inputs v).getD [])) with
  | error e =>
    simp only [hrun] at h
    have := congrArg Prod.snd h
    simp at this
  | ok out =>
    simp only [hrun] at h
    cases hwb : (writeBack (st.nodes.getD v default).data out).2 with
    | some e =>
      simp only [hwb] at h
      have := congrArg Prod.snd h
      simp at this
    | none =>
      simp only [hwb] at h
      have hfst := congrArg Prod.fst h
      dsimp only [] at hfst
      refine ⟨out, rfl, hwb, ?_, ?_, ?_⟩
      · rw [← hfst]
      · rw [← hfst]
        exact assocGet_assocSet_self _ _ _
      · rw [← hfst]

theorem writeBack_ok_eq (out : Record) :
    ∀ data : List (String × Control), (writeBack data out).2 = none →
      (writeBack data out).1 = data.map (fun nc =>
        (nc.1, if recGet out nc.1 = .nil then nc.2
          else (nc.2.set_value (recGet out nc.1)).1)) := by
  intro data
  induction data with
  | nil => intro _; rfl
  | cons nc rest ih =>
    intro h
    obtain ⟨name, c⟩ := nc
    unfold writeBack at h ⊢
    dsimp only [] at h ⊢
    cases hg : recGet out name with
    | nil =>
      simp only [hg] at h ⊢
      rw [ih h]
      simp [hg]
    | num x =>
      simp only [hg] at h ⊢
      cases hsv : c.set_value (LuaVal.num x) with
      | mk c' e =>
        simp only [hsv] at h ⊢
        cases e with
        | none =>
          simp only [] at h ⊢
          rw [ih h]
          simp [hg, hsv]
        | some msg => cases h
    | other s =>
      simp only [hg] at h ⊢
      cases hsv : c.set_value (LuaVal.other s) with
      | mk c' e =>
        simp only [hsv] at h ⊢
        cases e with
        | none =>
          simp only [] at h ⊢
          rw [ih h]
          simp [hg, hsv]
        | some msg => cases h

theorem assocGet_map_keyed (g : String × Control → Control) :
    ∀ (l : List (String × Control)) (name : String) (c : Control),
      (l.map Prod.fst).Nodup → (name, c) ∈ l →
      assocGet (l.map (fun nc => (nc.1, g nc))) name = some (g (name, c)) := by
  intro l
  induction l with
  | nil => intro name c _ hm; cases hm
  | cons p rest ih =>
    intro name c hnd hm
    rw [List.map_cons] at hnd
    have hnd' := List.nodup_cons.mp hnd
    rcases List.mem_cons.mp hm with heq | hm'
    · subst heq
      show (if name = name then some (g (name, c)) else _) = some (g (name, c))
      rw [if_pos rfl]
    · have hne : p.1 ≠ name := by
        intro h
        exact hnd'.1 (h ▸ List.mem_map_of_mem Prod.fst hm')
      show (if p.1 = name then some (g p) else
        assocGet (rest.map (fun nc => (nc.1, g nc))) name) = some (g (name, c))
      rw [if_neg hne]
      exact ih name c hnd'.2 hm'

theorem runLoop_cons_ok {edges : List REdge} {v : Nat} {rest : List Nat}
    {st stF : EngState} (h : runLoop edges (v :: rest) st = (stF, none)) :
    ∃ stI, stepNode edges v st = (stI, none) ∧ runLoop edges rest stI = (stF, none) := by
  rw [runLoop_cons] at h
  cases hs : stepNode edges v st with
  | mk stI err =>
    rw [hs] at h
    cases err with
    | none => exact ⟨stI, rfl, h⟩
    | some e =>
      have := congrArg Prod.snd h
      simp at this

/-- C3: on a successful run, every node's persisted control value ends up
overwritten exactly by the non-nil value its own behaviour's output record
carries under the control's name, and is untouched when that value is nil —
no other engine step writes a node's control data. -/
theorem control_writeback_exact (nodes : List Node) (wires : List Wire) (i : Nat)
    (hi : i < nodes.length)
    (hnodup : ((nodes.getD i default).data.map Prod.fst).Nodup)
    (hok : (engineRun nodes wires).error = none) :
    ∃ out, assocGet (engineRun nodes wires).outRecs i = some out ∧
      ∀ name c, (name, c) ∈ (nodes.getD i default).data →
        assocGet ((engineRun nodes wires).nodes.getD i default).data name =
          some (if recGet out name = .nil then c
            else (c.set_value (recGet out name)).1) := by
  obtain ⟨es, ord, stF, hres, ht, hL, heq⟩ := engineRun_ok_destruct hok
  have hperm := kahnAux_perm _ nodes.length _ _ ht
  have hnd : ord.Nodup := hperm.nodup_iff.mpr (List.nodup_range _)
  have hiord : i ∈ ord := hperm.mem_iff.mpr (List.mem_range.mpr hi)
  obtain ⟨p, q, hsplit⟩ := List.append_of_mem hiord
  rw [hsplit] at hL hnd
  rcases List.nodup_append.mp hnd with ⟨hndp, hndiq, hdisj⟩
  have hip : i ∉ p := fun h => hdisj h (List.mem_cons_self _ _)
  have hiq : i ∉ q := (List.nodup_cons.mp hndiq).1
  obtain ⟨stP, hP, hrest⟩ := runLoop_append_ok hL
  obtain ⟨stI, hstep, hQ⟩ := runLoop_cons_ok hrest
  have hnodesP : stP.nodes.getD i default = nodes.getD i default := by
    have := runLoop_nodes_ne es p ⟨nodes, [], [], []⟩ i hip
    rw [hP] at this
    exact this
  have hlenP : stP.nodes.length = nodes.length := by
    have := runLoop_nodes_length es p ⟨nodes, [], [], []⟩
    rw [hP] at this
    exact this
  obtain ⟨out, hrun, hwb, hnodesI, houtI, _⟩ := stepNode_ok_destruct hstep
  have hdataI : stI.nodes.getD i default =
      Node.mk (stP.nodes.getD i default).prototype
        (writeBack (stP.nodes.getD i default).data out).1 := by
    rw [hnodesI]
    exact list_getD_set _ _ _ i (by rw [hlenP]; exact hi)
  have hnodesF : stF.nodes.getD i default = stI.nodes.getD i default := by
    have := runLoop_nodes_ne es q stI i hiq
    rw [hQ] at this
    exact this
  have houtF : assocGet stF.outRecs i = some out := by
    have := runLoop_outRecs_ne es q stI i hiq
    rw [hQ] at this
    rw [this]
    exact houtI
  refine ⟨out, ?_, ?_⟩
  · rw [heq]
    exact houtF
  · intro name c hm
    rw [heq]
    show assocGet (stF.nodes.getD i default).data name = _
    rw [hnodesF, hdataI]
    show assocGet (writeBack (stP.nodes.getD i default).data out).1 name = _
    rw [hnodesP] at hwb ⊢
    rw [writeBack_ok_eq out _ hwb]
    exact assocGet_map_keyed _ _ name c hnodup hm

/-- Witness for C3 at spec Scenario 2: the slider node's output record echoes
the control, so its persisted value is the written-back 3. -/
theorem control_writeback_exact_witness :
    ∃ out, assocGet (engineRun [sliderEchoNode] []).outRecs 0 = some out ∧
      ∀ name c, (name, c) ∈ (([sliderEchoNode] : List Node).getD 0 default).data →
        assocGet ((engineRun [sliderEchoNode] []).nodes.getD 0 default).data name =
          some (if recGet out name = .nil then c
            else (c.set_value (recGet out name)).1) :=
  control_writeback_exact [sliderEchoNode] [] 0 (by decide) (by decide) (by decide)

theorem propagate_fold_slot (out : Record) (b : Nat) (nm : String) (V : LuaVal) :
    ∀ (es' : List REdge) (m : List (Nat × Record)),
      recGet ((assocGet m b).getD []) nm = V →
      (∀ e ∈ es', e.dst = b → e.inName = nm → recGet out e.outName = V) →
      recGet ((assocGet (es'.foldl (fun m e =>
        assocSet m e.dst (recSet ((assocGet m e.dst).getD []) e.inName
          (recGet out e.outName))) m) b).getD []) nm = V := by
  intro es'
  induction es' with
  | nil => intro m hv _; exact hv
  | cons e rest ih =>
    intro m hv hall
    apply ih
    · dsimp only []
      by_cases hdst : e.dst = b
      · rw [hdst, assocGet_assocSet_self]
        by_cases hnm : e.inName = nm
        · rw [Option.getD_some, hnm, recGet_recSet_self]
          exact hall e (List.mem_cons_self _ _) hdst hnm
        · rw [Option.getD_some, recGet_recSet_ne _ _ _ _ (fun h => hnm h.symm)]
          exact hv
      · rw [assocGet_assocSet_ne _ _ _ _ (fun h => hdst h.symm)]
        exact hv
    · exact fun e' he' => hall e' (List.mem_cons_of_mem _ he')

theorem propagate_fold_writes (out : Record) (b : Nat) (nm : String) (V : LuaVal) :
    ∀ (es' : List REdge) (m : List (Nat × Record)) (e : REdge), e ∈ es' →
      e.dst = b → e.inName = nm → recGet out e.outName = V →
      (∀ e' ∈ es', e'.dst = b → e'.inName = nm → recGet out e'.outName = V) →
      recGet ((assocGet (es'.foldl (fun m e =>
        assocSet m e.dst (recSet ((assocGet m e.dst).getD []) e.inName
          (recGet out e.outName))) m) b).getD []) nm = V := by
  intro es'
  induction es' with
  | nil => intro m e hmem; cases hmem
  | cons e₁ rest ih =>
    intro m e hmem hdst hnm hV hall
    by_cases hw : e₁.dst = b ∧ e₁.inName = nm
    · obtain ⟨h1, h2⟩ := hw
      rw [List.foldl_cons]
      apply propagate_fold_slot
      · show recGet ((assocGet (assocSet m e₁.dst (recSet ((assocGet m e₁.dst).getD [])
            e₁.inName (recGet out e₁.outName))) b).getD []) nm = V
        rw [h1, assocGet_assocSet_self, Option.getD_some, h2, recGet_recSet_self]
        exact hall e₁ (List.mem_cons_self _ _) h1 h2
      · exact fun e' he' => hall e' (List.mem_cons_of_mem _ he')
    · have hmem' : e ∈ rest := by
        rcases List.mem_cons.mp hmem with rfl | h
        · exact absurd ⟨hdst, hnm⟩ hw
        · exact h
      exact ih _ e hmem' hdst hnm hV (fun e' he' => hall e' (List.mem_cons_of_mem _ he'))

theorem assocSet_slot (m : List (Nat × Record)) (u b : Nat) (nm : String) (r : Record)
    (h : u = b → recGet r nm = recGet ((assocGet m b).getD []) nm) :
    recGet ((assocGet (assocSet m u r) b).getD []) nm =
      recGet ((assocGet m b).getD []) nm := by
  by_cases hub : u = b
  · rw [hub, assocGet_assocSet_self, Option.getD_some]
    exact h hub
  · rw [assocGet_assocSet_ne _ _ _ _ (fun hh => hub hh.symm)]

theorem stepNode_slot_preserved (edges : List REdge) (u : Nat) (st : EngState)
    (b : Nat) (nm : String)
    (hname : u = b → nm ∉ (st.nodes.getD b default).data.map Prod.fst)
    (hedges : ∀ e ∈ edges, e.src = u → e.dst = b → e.inName = nm → False) :
    recGet ((assocGet (stepNode edges u st).1.inputs b).getD []) nm =
      recGet ((assocGet st.inputs b).getD []) nm := by
  have hrec1 : u = b →
      recGet (mkRecord (st.nodes.getD u default).data ((assocGet st.inputs u).getD [])) nm =
        recGet ((assocGet st.inputs b).getD []) nm := by
    intro hub
    rw [hub]
    exact recGet_mkRecord_not_mem nm _ _ (hname hub)
  unfold stepNode
  dsimp only []
  split
  · exact assocSet_slot _ _ _ _ _ hrec1
  · split
    · exact assocSet_slot _ _ _ _ _ hrec1
    · exact propagate_fold_slot _ b nm _ _ _
        (assocSet_slot _ _ _ _ _ hrec1)
        (fun e he hdst hnm =>
          (hedges e (List.mem_filter.mp he).1
            (by simpa using (List.mem_filter.mp he).2) hdst hnm).elim)

theorem runLoop_slot_preserved (edges : List REdge) :
    ∀ (l : List Nat) (st : EngState) (b : Nat) (nm : String),
      nm ∉ (st.nodes.getD b default).data.map Prod.fst →
      (∀ e ∈ edges, e.dst = b → e.inName = nm → e.src ∉ l) →
      recGet ((assocGet (runLoop edges l st).1.inputs b).getD []) nm =
        recGet ((assocGet st.inputs b).getD []) nm := by
  intro l
  induction l with
  | nil => intro st b nm _ _; rfl
  | cons v rest ih =>
    intro st b nm hname hedges
    have hstep := stepNode_slot_preserved edges v st b nm (fun _ => hname)
      (fun e he hsrc hdst hnm =>
        hedges e he hdst hnm (hsrc ▸ List.mem_cons_self _ _))
    rw [runLoop_cons]
    cases hs : stepNode edges v st with
    | mk st' err =>
      rw [hs] at hstep
      cases err with
      | some e => exact hstep
      | none =>
        rw [← hstep]
        apply ih
        · have hkeys := stepNode_keys edges v st b
          rw [hs] at hkeys
          rw [hkeys]
          exact hname
        · exact fun e he hdst hnm hsrc =>
            hedges e he hdst hnm (List.mem_cons_of_mem _ hsrc)

theorem nodup_get?_inj {α : Type} {l : List α} (hnd : l.Nodup) {i j : Nat} {x : α}
    (hi : l.get? i = some x) (hj : l.get? j = some x) : i = j := by
  obtain ⟨hi', hix⟩ := List.get?_eq_some.mp hi
  obtain ⟨hj', hjx⟩ := List.get?_eq_some.mp hj
  have hget : l.get ⟨i, hi'⟩ = l.get ⟨j, hj'⟩ := by rw [hix, hjx]
  have := (List.Nodup.get_inj_iff hnd).mp hget
  exact congrArg Fin.val this

theorem resolved_slot_unique {nodes : List Node} {wires : List Wire} {es : List REdge}
    {w : Wire} {e : REdge}
    (hres : resolveWires nodes wires = some es)
    (he : resolveWire nodes w = some e)
    (huniq : ∀ w' ∈ wires, w'.inNode = w.inNode → w'.inPort = w.inPort → w' = w)
    (hinnodup : ((nodes.getD e.dst default).prototype.inputs.map Prod.fst).Nodup) :
    ∀ e' ∈ es, e'.dst = e.dst → e'.inName = e.inName → e' = e := by
  intro e' he' hdst hnm
  obtain ⟨w', hw', hr'⟩ := (resolveWires_forall hres).1 e' he'
  obtain ⟨a, b, ha, hb, ho, hi, hsrc, hdstw⟩ := resolveWire_destruct he
  obtain ⟨a', b', ha', hb', ho', hi', hsrc', hdstw'⟩ := resolveWire_destruct hr'
  have hinode : w'.inNode = w.inNode := by rw [← hdstw', ← hdstw, hdst]
  have hbb : b' = b := by
    rw [hinode, hb] at hb'
    injection hb' with h
    exact h.symm
  have hbd : nodes.getD e.dst default = b := by
    rw [hdstw, List.getD_eq_get?, hb]
    rfl
  have hmapnd : (b.prototype.inputs.map Prod.fst).Nodup := by
    rw [← hbd]
    exact hinnodup
  have hbridge : ∀ (n : Node) (i : Nat),
      (n.prototype.inputs.map Prod.fst).get? i = n.input_name i := by
    intro n i
    show _ = (n.prototype.inputs.get? i).map (fun p => p.1)
    rw [List.get?_map]
  have h1 : (b.prototype.inputs.map Prod.fst).get? w.inPort = some e.inName :=
    (hbridge b w.inPort).trans hi
  have h2 : (b.prototype.inputs.map Prod.fst).get? w'.inPort = some e.inName := by
    rw [hbridge b w'.inPort, ← hbb, hi', hnm]
  have hport : w'.inPort = w.inPort := nodup_get?_inj hmapnd h2 h1
  have hww : w' = w := huniq w' hw' hinode hport
  rw [hww, he] at hr'
  injection hr' with h
  exact h.symm

theorem run_delivers {nodes : List Node} {wires : List Wire} {es : List REdge}
    {ord : List Nat} {stF : EngState} {w : Wire} {e : REdge}
    (hres : resolveWires nodes wires = some es)
    (ht : toposort nodes.length (es.map (fun e => (e.src, e.dst))) = some ord)
    (hL : runLoop es ord ⟨nodes, [], [], []⟩ = (stF, none))
    (hw : w ∈ wires) (he : resolveWire nodes w = some e)
    (huniq : ∀ w' ∈ wires, w'.inNode = w.inNode → w'.inPort = w.inPort → w' = w)
    (hinnodup : ((nodes.getD e.dst default).prototype.inputs.map Prod.fst).Nodup)
    (hctrl : e.inName ∉ (nodes.getD e.dst default).data.map Prod.fst) :
    ∃ out, assocGet stF.outRecs e.src = some out ∧
      recGet ((assocGet stF.inputs e.dst).getD []) e.inName = recGet out e.outName := by
  have hkey := resolved_slot_unique hres he huniq hinnodup
  obtain ⟨e'', he''mem, hr''⟩ := (resolveWires_forall hres).2 w hw
  rw [he] at hr''
  have hemem : e ∈ es := by
    injection hr'' with h
    exact h ▸ he''mem
  have hsrcrange := (resolveWire_range he).1
  have hperm := kahnAux_perm _ nodes.length _ _ ht
  have hnd : ord.Nodup := hperm.nodup_iff.mpr (List.nodup_range _)
  have haord : e.src ∈ ord := hperm.mem_iff.mpr (List.mem_range.mpr hsrcrange)
  obtain ⟨p, q, hsplit⟩ := List.append_of_mem haord
  rw [hsplit] at hL hnd
  rcases List.nodup_append.mp hnd with ⟨_, hndaq, _⟩
  have haq : e.src ∉ q := (List.nodup_cons.mp hndaq).1
  obtain ⟨stP, hP, hrest⟩ := runLoop_append_ok hL
  obtain ⟨stI, hstep, hQ⟩ := runLoop_cons_ok hrest
  obtain ⟨out, hrun, hwb, hnodesI, houtI, hinputsI⟩ := stepNode_ok_destruct hstep
  have hslotI : recGet ((assocGet stI.inputs e.dst).getD []) e.inName =
      recGet out e.outName := by
    rw [hinputsI]
    apply propagate_fold_writes out e.dst e.inName _ _ _ e
      (List.mem_filter.mpr ⟨hemem, by simp⟩) rfl rfl rfl
    intro e' he' hdst hnm
    rw [hkey e' (List.mem_filter.mp he').1 hdst hnm]
  have hkeysI : e.inName ∉ (stI.nodes.getD e.dst default).data.map Prod.fst := by
    have k1 := stepNode_keys es e.src stP e.dst
    rw [hstep] at k1
    have k2 := runLoop_keys es p ⟨nodes, [], [], []⟩ e.dst
    rw [hP] at k2
    rw [k1, k2]
    exact hctrl
  have hslotF : recGet ((assocGet stF.inputs e.dst).getD []) e.inName =
      recGet ((assocGet stI.inputs e.dst).getD []) e.inName := by
    have hpres := runLoop_slot_preserved es q stI e.dst e.inName hkeysI
      (fun e' he' hdst hnm hsrc =>
        haq (by rw [← hkey e' he' hdst hnm]; exact hsrc))
    rw [hQ] at hpres
    exact hpres
  have houtF : assocGet stF.outRecs e.src = some out := by
    have := runLoop_outRecs_ne es q stI e.src haq
    rw [hQ] at this
    rw [this]
    exact houtI
  exact ⟨out, houtF, by rw [hslotF, hslotI]⟩

/-- C4: on a successful run, a wire from A's output "x" to B's input "y"
leaves B's input record holding under "y" exactly the value A's behaviour
returned under "x"; two wires fanning out from the same output port deliver
the identical value.  Hypotheses: each target input port has a single
incoming wire and duplicate-free input names (editor/IndexMap invariants),
and the target input name is not among the target's control names
(registration invariant). -/
theorem wire_propagation_fanout (nodes : List Node) (wires : List Wire)
    (w w₂ : Wire) (e e₂ : REdge)
    (hw : w ∈ wires) (hw₂ : w₂ ∈ wires)
    (he : resolveWire nodes w = some e) (he₂ : resolveWire nodes w₂ = some e₂)
    (huniq : ∀ w' ∈ wires, w'.inNode = w.inNode → w'.inPort = w.inPort → w' = w)
    (huniq₂ : ∀ w' ∈ wires, w'.inNode = w₂.inNode → w'.inPort = w₂.inPort → w' = w₂)
    (hinnodup : ((nodes.getD e.dst default).prototype.inputs.map Prod.fst).Nodup)
    (hinnodup₂ : ((nodes.getD e₂.dst default).prototype.inputs.map Prod.fst).Nodup)
    (hctrl : e.inName ∉ (nodes.getD e.dst default).data.map Prod.fst)
    (hctrl₂ : e₂.inName ∉ (nodes.getD e₂.dst default).data.map Prod.fst)
    (hok : (engineRun nodes wires).error = none) :
    (∃ out, assocGet (engineRun nodes wires).outRecs e.src = some out ∧
      recGet ((assocGet (engineRun nodes wires).inputs e.dst).getD []) e.inName =
        recGet out e.outName) ∧
    (e₂.src = e.src → e₂.outName = e.outName →
      recGet ((assocGet (engineRun nodes wires).inputs e₂.dst).getD []) e₂.inName =
        recGet ((assocGet (engineRun nodes wires).inputs e.dst).getD []) e.inName) := by
  obtain ⟨es, ord, stF, hres, ht, hL, heq⟩ := engineRun_ok_destruct hok
  obtain ⟨out, hout, hval⟩ := run_delivers hres ht hL hw he huniq hinnodup hctrl
  obtain ⟨out₂, hout₂, hval₂⟩ := run_delivers hres ht hL hw₂ he₂ huniq₂ hinnodup₂ hctrl₂
  rw [heq]
  constructor
  · exact ⟨out, hout, hval⟩
  · intro hsrc hnm
    rw [hsrc, hout] at hout₂
    injection hout₂ with hoo
    show recGet ((assocGet stF.inputs e₂.dst).getD []) e₂.inName =
      recGet ((assocGet stF.inputs e.dst).getD []) e.inName
    rw [hval₂, hval, ← hoo, hnm]

/-- Witness for C4: Const's output "x" fanned out to two Double nodes — both
input records receive the 5 Const returned. -/
theorem wire_propagation_fanout_witness :
    (∃ out, assocGet (engineRun [constNode, doubleNode, doubleNode]
        [⟨0, 0, 1, 0⟩, ⟨0, 0, 2, 0⟩]).outRecs 0 = some out ∧
      recGet ((assocGet (engineRun [constNode, doubleNode, doubleNode]
          [⟨0, 0, 1, 0⟩, ⟨0, 0, 2, 0⟩]).inputs 1).getD []) "y" =
        recGet out "x") ∧
    recGet ((assocGet (engineRun [constNode, doubleNode, doubleNode]
        [⟨0, 0, 1, 0⟩, ⟨0, 0, 2, 0⟩]).inputs 2).getD []) "y" =
      recGet ((assocGet (engineRun [constNode, doubleNode, doubleNode]
          [⟨0, 0, 1, 0⟩, ⟨0, 0, 2, 0⟩]).inputs 1).getD []) "y" := by
  have h := wire_propagation_fanout [constNode, doubleNode, doubleNode]
    [⟨0, 0, 1, 0⟩, ⟨0, 0, 2, 0⟩] ⟨0, 0, 1, 0⟩ ⟨0, 0, 2, 0⟩
    ⟨0, 1, "x", "y"⟩ ⟨0, 2, "x", "y"⟩
    (by decide) (by decide) (by decide) (by decide) (by decide) (by decide)
    (by decide) (by decide) (by decide) (by decide) (by decide)
  exact ⟨h.1, h.2 rfl rfl⟩
